import Mathlib

/-!
# Verification of the YOLO dataset editor core

Shallow embedding of the repository's editing core:
* `LabelParser` (src/js/LabelParser.js): parse / serialize of the YOLO text
  label format, modelled at the character-list level with JS `parseInt` /
  `parseFloat` / `toFixed(6)` semantics over exact rationals.
* `StateManager` (the state manager module): per-image box collections,
  undo/redo stacks, modification tracking.
* `LRUCache` (src/js/LRUCache.js): bounded insertion-ordered cache with
  least-recently-used eviction and release of evicted values.
* View transform (src/yolo-label-editor/js/main.js): image-pixel to
  canvas-pixel coordinate maps.

JS numbers are modelled as exact rationals (`ℚ`); JS `NaN` results of
`parseInt`/`parseFloat` are modelled by `Option.none`.
-/

/-- The whitespace characters matched by the JS regex class `\s` (ASCII part)
and trimmed by `String.prototype.trim`.  The label format only ever produces
spaces and newlines, so the ASCII subset is faithful here. -/
def isWs (c : Char) : Bool :=
  c == ' ' || c == '\t' || c == '\n' || c == '\r' || c == '\x0b' || c == '\x0c'

/-- Decimal digit test, as in the JS number grammar. -/
def isDigitC (c : Char) : Bool :=
  '0' ≤ c && c ≤ '9'

/-- Numeric value of a decimal digit character. -/
def digitVal (c : Char) : Nat :=
  c.toNat - 48

/-- The character for a decimal digit. -/
def digitChar (d : Nat) : Char :=
  Char.ofNat (d + 48)

/-- Decimal digits of `n`, least-significant first, with explicit fuel so the
recursion is structural.  `natCharsRev n.succ n` is always fully computed. -/
def natCharsRev : Nat → Nat → List Char
  | 0, _ => []
  | fuel + 1, n => if n < 10 then [digitChar n] else digitChar (n % 10) :: natCharsRev fuel (n / 10)

/-- Decimal representation of a natural number, most-significant digit first,
as produced by JS number-to-string conversion for integral values. -/
def natToChars (n : Nat) : List Char :=
  (natCharsRev n.succ n).reverse

/-- Value of a most-significant-first digit string, accumulated left to right
exactly as a JS decimal integer parse does. -/
def digitsVal (cs : List Char) : Nat :=
  cs.foldl (fun a c => 10 * a + digitVal c) 0

/-- Value of a least-significant-first digit list. -/
def lsbVal (cs : List Char) : Nat :=
  cs.foldr (fun c a => 10 * a + digitVal c) 0

/-- Longest prefix of decimal digits, together with the rest of the input:
the `span` used by the JS numeric grammars. -/
def takeDigits : List Char → List Char × List Char
  | [] => ([], [])
  | c :: rest =>
    if isDigitC c then
      let p := takeDigits rest
      (c :: p.1, p.2)
    else ([], c :: rest)

/-- Optional sign of the JS numeric grammars: returns (isNegative, rest). -/
def parseSignChars (cs : List Char) : Bool × List Char :=
  match cs with
  | [] => (false, [])
  | c :: rest =>
    if c = '-' then (true, rest)
    else if c = '+' then (false, rest)
    else (false, c :: rest)

/-- JS `parseInt(s, 10)`: skip whitespace, optional sign, then the longest
decimal-digit prefix; `NaN` (here `none`) when no digit is found.  Trailing
garbage is ignored. -/
def jsParseInt (cs : List Char) : Option Int :=
  let s := parseSignChars (cs.dropWhile isWs)
  let ds := (takeDigits s.2).1
  if ds = [] then none
  else some (if s.1 then -(digitsVal ds : Int) else (digitsVal ds : Int))

/-- `10^e` for a signed exponent, over `ℚ`. -/
def tenPow (e : Int) : ℚ :=
  (10 : ℚ) ^ e

/-- Signed decimal exponent digits (after the `e`/`E`); an incomplete exponent
contributes `0`, matching the JS longest-valid-prefix rule. -/
def expSigned (cs : List Char) : Int :=
  let s := parseSignChars cs
  let ds := (takeDigits s.2).1
  if ds = [] then 0
  else if s.1 then -(digitsVal ds : Int) else (digitsVal ds : Int)

/-- Optional exponent part of the JS float grammar. -/
def expVal (cs : List Char) : Int :=
  match cs with
  | [] => 0
  | c :: rest => if c = 'e' ∨ c = 'E' then expSigned rest else 0

/-- Value of a fraction-digit string `fp` read after the decimal point. -/
def fracVal (fp : List Char) : ℚ :=
  (digitsVal fp : ℚ) / (10 : ℚ) ^ fp.length

/-- Fraction digits after a leading `'.'`, with what follows them; `none`
when the input does not start with `'.'`. -/
def afterPoint (r : List Char) : Option (List Char × List Char) :=
  match r with
  | [] => none
  | c :: r2 => if c = '.' then some (takeDigits r2) else none

/-- Unsigned part of JS `parseFloat`: `digits [. digits] [exp]` or
`. digits [exp]`, longest valid prefix, `none` when no mantissa digit exists.
(The `Infinity` literal is not modelled: an infinite value can never satisfy
the parser's range validation, so `none` yields the same parse result.) -/
def floatMag (cs : List Char) : Option ℚ :=
  let ip := (takeDigits cs).1
  let r1 := (takeDigits cs).2
  match afterPoint r1 with
  | some q =>
    if ip = [] ∧ q.1 = [] then none
    else some (((digitsVal ip : ℚ) + fracVal q.1) * tenPow (expVal q.2))
  | none =>
    if ip = [] then none
    else some ((digitsVal ip : ℚ) * tenPow (expVal r1))

/-- JS `parseFloat`: skip whitespace, optional sign, then `floatMag`. -/
def jsParseFloat (cs : List Char) : Option ℚ :=
  let s := parseSignChars (cs.dropWhile isWs)
  (floatMag s.2).map fun q => if s.1 then -q else q

/-- JS `String.prototype.trim`. -/
def jsTrim (cs : List Char) : List Char :=
  ((cs.dropWhile isWs).reverse.dropWhile isWs).reverse

/-- JS `String.prototype.split('\n')`; note `"".split('\n')` is `[""]`. -/
def splitOnNl : List Char → List (List Char)
  | [] => [[]]
  | c :: cs =>
    if c = '\n' then [] :: splitOnNl cs
    else
      match splitOnNl cs with
      | [] => [[c]]
      | r :: rs => (c :: r) :: rs

/-- Accumulator worker for `tokens`. -/
def tokensAux : List Char → List Char → List (List Char)
  | [], acc => if acc = [] then [] else [acc.reverse]
  | c :: cs, acc =>
    if isWs c then
      if acc = [] then tokensAux cs [] else acc.reverse :: tokensAux cs []
    else tokensAux cs (c :: acc)

/-- JS `line.split(/\s+/)` applied to a trimmed line: the maximal runs of
non-whitespace characters, in order. -/
def tokens (cs : List Char) : List (List Char) :=
  tokensAux cs []

/-- One bounding-box annotation, as built by `LabelParser.parse`
(src/js/LabelParser.js).  The `crypto.randomUUID()` identifier is modelled as
the box's source line index, which is unique within one parse result. -/
structure Box where
  id : Nat
  classId : Int
  xCenter : ℚ
  yCenter : ℚ
  width : ℚ
  height : ℚ
  deleted : Bool
  selected : Bool
  lineIndex : Nat
  deriving DecidableEq, Repr

namespace LabelParser

/-- One iteration of the parse loop of `LabelParser.parse` for source line
index `i`: trim the line, skip empties and `#` comments, split on whitespace,
require at least five parts, parse them with `parseInt`/`parseFloat` (a `NaN`
is `none`), and validate the documented ranges. -/
def parseLine (i : Nat) (raw : List Char) : Option Box :=
  let line := jsTrim raw
  if line = [] then none
  else if line.head? = some '#' then none
  else
    match tokens line with
    | p0 :: p1 :: p2 :: p3 :: p4 :: _ =>
      match jsParseInt p0, jsParseFloat p1, jsParseFloat p2, jsParseFloat p3, jsParseFloat p4 with
      | some cid, some x, some y, some w, some h =>
        if 0 ≤ cid ∧ 0 ≤ x ∧ x ≤ 1 ∧ 0 ≤ y ∧ y ≤ 1 ∧ 0 < w ∧ w ≤ 1 ∧ 0 < h ∧ h ≤ 1 then
          some { id := i, classId := cid, xCenter := x, yCenter := y, width := w,
                 height := h, deleted := false, selected := false, lineIndex := i }
        else none
      | _, _, _, _, _ => none
    | _ => none

/-- `LabelParser.parse` on a character list: empty/blank content parses to no
boxes; otherwise the trimmed content is split on newlines and each line is
processed with its index. -/
def parseChars (content : List Char) : List Box :=
  if jsTrim content = [] then []
  else ((splitOnNl (jsTrim content)).enum).filterMap fun p => parseLine p.1 p.2

/-- `LabelParser.parse` on a string. -/
def parse (s : String) : List Box :=
  parseChars s.data

/-- JS `toFixed(6)` rounding: the integer `n` with `n/10^6` nearest to `q`,
ties taking the larger `n`. -/
def round6 (q : ℚ) : ℤ :=
  ⌊q * 1000000 + 1 / 2⌋

/-- The rational actually denoted by the 6-decimal output for `q ≥ 0`. -/
def round6Val (q : ℚ) : ℚ :=
  (round6 q : ℚ) / 1000000

/-- Digits of `n/10^6` with exactly six digits after the decimal point. -/
def fixed6Nat (n : Nat) : List Char :=
  natToChars (n / 1000000) ++
    '.' :: (List.replicate (6 - (natToChars (n % 1000000)).length) '0' ++ natToChars (n % 1000000))

/-- JS `Number.prototype.toFixed(6)`: nonnegative values render as
`⌊q·10^6 + 1/2⌋ / 10^6` with six fraction digits; negative values (unreachable
from `serialize` on in-range boxes) render as the sign-prefixed magnitude. -/
def fixed6 (q : ℚ) : List Char :=
  if q < 0 then '-' :: fixed6Nat (round6 (-q)).toNat else fixed6Nat (round6 q).toNat

/-- JS template interpolation of an integral number. -/
def intToChars (i : Int) : List Char :=
  if i < 0 then '-' :: natToChars (-i).toNat else natToChars i.toNat

/-- One output line of `LabelParser.serialize`:
`classId xc yc w h` with six decimals on each coordinate. -/
def serializeBox (b : Box) : List Char :=
  intToChars b.classId ++
    ' ' :: (fixed6 b.xCenter ++
      ' ' :: (fixed6 b.yCenter ++
        ' ' :: (fixed6 b.width ++ ' ' :: fixed6 b.height)))

/-- JS `Array.prototype.join('\n')`. -/
def joinNl : List (List Char) → List Char
  | [] => []
  | [l] => l
  | l :: ls => l ++ '\n' :: joinNl ls

/-- `LabelParser.serialize` on character lists: drop deleted boxes, format
each survivor, join with single newlines, no trailing newline. -/
def serializeChars (boxes : List Box) : List Char :=
  joinNl ((boxes.filter fun b => !b.deleted).map serializeBox)

/-- `LabelParser.serialize`. -/
def serialize (boxes : List Box) : String :=
  ⟨serializeChars boxes⟩

/-- `LabelParser.cloneBox`: a JS spread copy of an immutable record is the
record itself in the pure model. -/
def cloneBox (b : Box) : Box := b

/-- `LabelParser.cloneBoxes`. -/
def cloneBoxes (boxes : List Box) : List Box :=
  boxes.map cloneBox

end LabelParser

/-! ## StateManager (the state manager module)

JS `Map` is modelled as an insertion-ordered association list and JS `Set`
as an insertion-ordered duplicate-free list.  A `Date.now()` timestamp is an
environment input and is passed explicitly to the operations that record
actions.  The `extraData` parameter of `recordAction` is never supplied by
any caller in the repository and is omitted. -/

/-- JS `Map.prototype.get`. -/
def jsMapGet (m : List (Int × ImageState)) (k : Int) : Option ImageState :=
  (m.find? fun p => p.1 == k).map Prod.snd

/-- JS `Map.prototype.set`: replace in place, or append as newest entry. -/
def jsMapSet (m : List (Int × ImageState)) (k : Int) (v : ImageState) : List (Int × ImageState) :=
  if (m.find? fun p => p.1 == k).isSome then
    m.map fun p => if p.1 == k then (k, v) else p
  else m ++ [(k, v)]

/-- JS `Map.prototype.delete`. -/
def jsMapDel (m : List (Int × ImageState)) (k : Int) : List (Int × ImageState) :=
  m.filter fun p => !(p.1 == k)

/-- JS `Set.prototype.add`. -/
def setAdd (s : List Int) (k : Int) : List Int :=
  if k ∈ s then s else s ++ [k]

/-- JS `Set.prototype.delete`. -/
def setDel (s : List Int) (k : Int) : List Int :=
  s.filter fun x => !(x == k)

/-- The action type strings used by the state manager. -/
def actDelete : String := "delete"

/-- See `actDelete`. -/
def actRestore : String := "restore"

/-- An undoable edit record: type tag, clones of the affected boxes captured
before the mutation, and the `Date.now()` creation timestamp. -/
structure EditAction where
  type : String
  boxes : List Box
  timestamp : Nat
  deriving DecidableEq, Repr

/-- Per-image entry of `StateManager.imageStates`. -/
structure ImageState where
  boxes : List Box
  originalBoxes : List Box
  undoStack : List EditAction
  redoStack : List EditAction
  deriving DecidableEq, Repr

/-- The `StateManager` instance state. -/
structure StateManager where
  currentIndex : Int
  imageStates : List (Int × ImageState)
  globalModified : List Int
  deriving DecidableEq, Repr

namespace StateManager

/-- `this.maxStackSize`, fixed at 50 by the constructor. -/
def maxStackSize : Nat := 50

/-- The `StateManager` constructor. -/
def init : StateManager :=
  { currentIndex := -1, imageStates := [], globalModified := [] }

/-- `initImageState(index, boxes)`. -/
def initImageState (s : StateManager) (index : Int) (boxes : List Box) : StateManager :=
  let s1 :=
    if (jsMapGet s.imageStates index).isSome then s
    else
      let st : ImageState :=
        { boxes := LabelParser.cloneBoxes boxes
          originalBoxes := LabelParser.cloneBoxes boxes
          undoStack := []
          redoStack := [] }
      { s with imageStates := jsMapSet s.imageStates index st }
  { s1 with currentIndex := index }

/-- `setCurrentIndex(index)`. -/
def setCurrentIndex (s : StateManager) (index : Int) : StateManager :=
  { s with currentIndex := index }

/-- `getCurrentBoxes()` (value-level result; the reference-level behaviour is
modelled separately by `SessionHeap`). -/
def getCurrentBoxes (s : StateManager) : List Box :=
  match jsMapGet s.imageStates s.currentIndex with
  | some st => st.boxes
  | none => []

/-- `setCurrentBoxes(boxes)`. -/
def setCurrentBoxes (s : StateManager) (boxes : List Box) : StateManager :=
  match jsMapGet s.imageStates s.currentIndex with
  | none => s
  | some st =>
    let st' := { st with boxes := LabelParser.cloneBoxes boxes }
    { s with imageStates := jsMapSet s.imageStates s.currentIndex st' }

/-- `recordAction(type, affectedBoxes)`: push the action (with clones of the
affected boxes), shift the oldest entry out when the stack exceeds
`maxStackSize`, and clear the redo stack. -/
def recordAction (s : StateManager) (type : String) (affected : List Box) (now : Nat) :
    StateManager :=
  match jsMapGet s.imageStates s.currentIndex with
  | none => s
  | some st =>
    let action : EditAction := { type := type, boxes := affected.map LabelParser.cloneBox, timestamp := now }
    let pushed := st.undoStack ++ [action]
    let trimmed := if maxStackSize < pushed.length then pushed.drop 1 else pushed
    let st' := { st with undoStack := trimmed, redoStack := [] }
    { s with imageStates := jsMapSet s.imageStates s.currentIndex st' }

/-- `box.deleted = false; box.selected = false` (undo of a delete). -/
def unmarkBox (b : Box) : Box :=
  { b with deleted := false, selected := false }

/-- `box.deleted = true; box.selected = false` (undo of a restore). -/
def remarkBox (b : Box) : Box :=
  { b with deleted := true, selected := false }

/-- `state.boxes.find(b => b.id === savedBox.id)` followed by an in-place
mutation: rewrite the first box carrying `bid`, leave the rest alone. -/
def setFirstById (boxes : List Box) (bid : Nat) (f : Box → Box) : List Box :=
  match boxes with
  | [] => []
  | b :: rest => if b.id = bid then f b :: rest else b :: setFirstById rest bid f

/-- The replay loop of `undo`/`redo`: for each saved box, find the first
live box with the same id and apply `f`; ids with no live match are skipped. -/
def replayBoxes (saved : List Box) (f : Box → Box) (boxes : List Box) : List Box :=
  saved.foldl (fun bs sb => setFirstById bs sb.id f) boxes

/-- The `updateModifiedState` difference test: some working box has no
original with its id, or disagrees with it on `deleted`. -/
def hasDiff (boxes originalBoxes : List Box) : Bool :=
  boxes.any fun b =>
    match originalBoxes.find? (fun o => o.id == b.id) with
    | none => true
    | some o => b.deleted != o.deleted

/-- `updateModifiedState()`. -/
def updateModifiedState (s : StateManager) : StateManager :=
  match jsMapGet s.imageStates s.currentIndex with
  | none => s
  | some st =>
    if hasDiff st.boxes st.originalBoxes then
      { s with globalModified := setAdd s.globalModified s.currentIndex }
    else
      { s with globalModified := setDel s.globalModified s.currentIndex }

/-- `undo()`: pop the newest action, reverse its effect on the matching
boxes, move it to the redo stack, recompute the modified flag. -/
def undo (s : StateManager) : StateManager × Bool :=
  match jsMapGet s.imageStates s.currentIndex with
  | none => (s, false)
  | some st =>
    match st.undoStack.getLast? with
    | none => (s, false)
    | some action =>
      let boxes :=
        if action.type = actDelete then replayBoxes action.boxes unmarkBox st.boxes
        else if action.type = actRestore then replayBoxes action.boxes remarkBox st.boxes
        else st.boxes
      let st' := { st with
        boxes := boxes
        undoStack := st.undoStack.dropLast
        redoStack := st.redoStack ++ [action] }
      (updateModifiedState ({ s with imageStates := jsMapSet s.imageStates s.currentIndex st' }), true)

/-- `redo()`. -/
def redo (s : StateManager) : StateManager × Bool :=
  match jsMapGet s.imageStates s.currentIndex with
  | none => (s, false)
  | some st =>
    match st.redoStack.getLast? with
    | none => (s, false)
    | some action =>
      let boxes :=
        if action.type = actDelete then replayBoxes action.boxes remarkBox st.boxes
        else if action.type = actRestore then replayBoxes action.boxes unmarkBox st.boxes
        else st.boxes
      let st' := { st with
        boxes := boxes
        undoStack := st.undoStack ++ [action]
        redoStack := st.redoStack.dropLast }
      (updateModifiedState ({ s with imageStates := jsMapSet s.imageStates s.currentIndex st' }), true)

/-- `canUndo()`. -/
def canUndo (s : StateManager) : Bool :=
  match jsMapGet s.imageStates s.currentIndex with
  | some st => decide (0 < st.undoStack.length)
  | none => false

/-- `canRedo()`. -/
def canRedo (s : StateManager) : Bool :=
  match jsMapGet s.imageStates s.currentIndex with
  | some st => decide (0 < st.redoStack.length)
  | none => false

/-- `markModified()`. -/
def markModified (s : StateManager) : StateManager :=
  { s with globalModified := setAdd s.globalModified s.currentIndex }

/-- Rewrites the current image's working boxes through `f` (the in-place
mutation loops of the source). -/
def modifyCurrentBoxes (s : StateManager) (f : List Box → List Box) : StateManager :=
  match jsMapGet s.imageStates s.currentIndex with
  | none => s
  | some st =>
    let st' := { st with boxes := f st.boxes }
    { s with imageStates := jsMapSet s.imageStates s.currentIndex st' }

/-- `deleteSelected()`: the JS code collects the selected live boxes, records
clones of them, then mutates exactly those objects; mutating the objects
satisfying the predicate is expressed as a map over the collection. -/
def deleteSelected (s : StateManager) (now : Nat) : StateManager × Nat :=
  match jsMapGet s.imageStates s.currentIndex with
  | none => (s, 0)
  | some st =>
    let sel := st.boxes.filter fun b => b.selected && !b.deleted
    if sel.length = 0 then (s, 0)
    else
      let s1 := recordAction s actDelete sel now
      let s2 := modifyCurrentBoxes s1 (List.map fun b =>
        if b.selected && !b.deleted then { b with deleted := true, selected := false } else b)
      (markModified s2, sel.length)

/-- `restoreDeleted(onlySelected)`. -/
def restoreDeleted (s : StateManager) (onlySelected : Bool) (now : Nat) : StateManager × Nat :=
  match jsMapGet s.imageStates s.currentIndex with
  | none => (s, 0)
  | some st =>
    let toRestore :=
      if onlySelected then st.boxes.filter fun b => b.deleted && b.selected
      else st.boxes.filter fun b => b.deleted
    if toRestore.length = 0 then (s, 0)
    else
      let s1 := recordAction s actRestore toRestore now
      let pred : Box → Bool := fun b => if onlySelected then b.deleted && b.selected else b.deleted
      let s2 := modifyCurrentBoxes s1 (List.map fun b =>
        if pred b then { b with deleted := false, selected := false } else b)
      (markModified s2, toRestore.length)

/-- `selectAll()`. -/
def selectAll (s : StateManager) : StateManager :=
  modifyCurrentBoxes s (List.map fun b => if !b.deleted then { b with selected := true } else b)

/-- `clearSelection()`. -/
def clearSelection (s : StateManager) : StateManager :=
  modifyCurrentBoxes s (List.map fun b => { b with selected := false })

/-- `toggleBoxSelection(boxId)`: acts on the first box with the id, and only
when it is not deleted. -/
def toggleBoxSelection (s : StateManager) (bid : Nat) : StateManager :=
  match jsMapGet s.imageStates s.currentIndex with
  | none => s
  | some st =>
    match st.boxes.find? (fun b => b.id == bid) with
    | some b =>
      if !b.deleted then
        modifyCurrentBoxes s (fun bs => setFirstById bs bid fun x => { x with selected := !x.selected })
      else s
    | none => s

/-- `selectBox(boxId)`. -/
def selectBox (s : StateManager) (bid : Nat) : StateManager :=
  let s1 := clearSelection s
  match jsMapGet s1.imageStates s1.currentIndex with
  | none => s1
  | some st =>
    match st.boxes.find? (fun b => b.id == bid) with
    | some b =>
      if !b.deleted then
        modifyCurrentBoxes s1 (fun bs => setFirstById bs bid fun x => { x with selected := true })
      else s1
    | none => s1

/-- `getSelectedCount()`. -/
def getSelectedCount (s : StateManager) : Nat :=
  match jsMapGet s.imageStates s.currentIndex with
  | some st => (st.boxes.filter fun b => b.selected && !b.deleted).length
  | none => 0

/-- `getBoxCount()`. -/
def getBoxCount (s : StateManager) : Nat :=
  match jsMapGet s.imageStates s.currentIndex with
  | some st => (st.boxes.filter fun b => !b.deleted).length
  | none => 0

/-- `getDeletedCount()`. -/
def getDeletedCount (s : StateManager) : Nat :=
  match jsMapGet s.imageStates s.currentIndex with
  | some st => (st.boxes.filter fun b => b.deleted).length
  | none => 0

/-- `isCurrentModified()`. -/
def isCurrentModified (s : StateManager) : Bool :=
  s.globalModified.contains s.currentIndex

/-- `isModified(index)`. -/
def isModified (s : StateManager) (index : Int) : Bool :=
  s.globalModified.contains index

/-- `markSaved()`. -/
def markSaved (s : StateManager) : StateManager :=
  match jsMapGet s.imageStates s.currentIndex with
  | none => s
  | some st =>
    let nonDeleted := st.boxes.filter fun b => !b.deleted
    let st' : ImageState :=
      { boxes := LabelParser.cloneBoxes nonDeleted
        originalBoxes := LabelParser.cloneBoxes nonDeleted
        undoStack := []
        redoStack := [] }
    { s with
      imageStates := jsMapSet s.imageStates s.currentIndex st'
      globalModified := setDel s.globalModified s.currentIndex }

/-- `markSavedAt(index)`. -/
def markSavedAt (s : StateManager) (index : Int) : StateManager :=
  let s1 := markSaved { s with currentIndex := index }
  { s1 with currentIndex := s.currentIndex }

/-- `getBoxesForSave()` (value-level result). -/
def getBoxesForSave (s : StateManager) : List Box :=
  match jsMapGet s.imageStates s.currentIndex with
  | some st => st.boxes.filter fun b => !b.deleted
  | none => []

/-- `hasUnsavedChanges()`. -/
def hasUnsavedChanges (s : StateManager) : Bool :=
  decide (0 < s.globalModified.length)

/-- `clearImageState(index)`. -/
def clearImageState (s : StateManager) (index : Int) : StateManager :=
  { s with
    imageStates := jsMapDel s.imageStates index
    globalModified := setDel s.globalModified index }

/-- `clearAll()`. -/
def clearAll (_ : StateManager) : StateManager :=
  { currentIndex := -1, imageStates := [], globalModified := [] }

/-- `resetCurrent()`. -/
def resetCurrent (s : StateManager) : StateManager :=
  match jsMapGet s.imageStates s.currentIndex with
  | none => s
  | some st =>
    let st' :=
      { st with
        boxes := LabelParser.cloneBoxes st.originalBoxes
        undoStack := []
        redoStack := [] }
    { s with
      imageStates := jsMapSet s.imageStates s.currentIndex st'
      globalModified := setDel s.globalModified s.currentIndex }

end StateManager

/-! ## LRUCache (src/js/LRUCache.js)

The JS `Map` is insertion ordered; the cache is its entry list, oldest first.
Operations that can invoke the release path (`close()` on evicted values that
expose it) also return the list of values handed to that path. -/

/-- The `LRUCache` instance state. -/
structure LRUCache (κ ν : Type) where
  maxSize : Nat
  cache : List (κ × ν)
  deriving DecidableEq, Repr

namespace LRUCache

variable {κ ν : Type} [DecidableEq κ]

/-- Raw `Map.prototype.get` (no reordering). -/
def lookupRaw (c : List (κ × ν)) (k : κ) : Option ν :=
  (c.find? fun p => p.1 == k).map Prod.snd

/-- Raw `Map.prototype.delete` (no release path). -/
def eraseKey (c : List (κ × ν)) (k : κ) : List (κ × ν) :=
  c.filter fun p => !(p.1 == k)

/-- `get(key)`: hit promotes the entry to most recently used. -/
def get (c : LRUCache κ ν) (k : κ) : LRUCache κ ν × Option ν :=
  match lookupRaw c.cache k with
  | none => (c, none)
  | some v => ({ c with cache := eraseKey c.cache k ++ [(k, v)] }, some v)

/-- `set(key, value)`: an existing key is re-added at the end with no release;
otherwise, at capacity the oldest entry is evicted through the release path
before the insert. -/
def set (c : LRUCache κ ν) (k : κ) (v : ν) : LRUCache κ ν × List ν :=
  if (lookupRaw c.cache k).isSome then
    ({ c with cache := eraseKey c.cache k ++ [(k, v)] }, [])
  else if c.maxSize ≤ c.cache.length then
    match c.cache with
    | [] => ({ c with cache := [(k, v)] }, [])
    | p :: rest => ({ c with cache := rest ++ [(k, v)] }, [p.2])
  else ({ c with cache := c.cache ++ [(k, v)] }, [])

/-- `has(key)`: no promotion. -/
def hasKey (c : LRUCache κ ν) (k : κ) : Bool :=
  (lookupRaw c.cache k).isSome

/-- `delete(key)`: removal through the release path. -/
def del (c : LRUCache κ ν) (k : κ) : LRUCache κ ν × List ν × Bool :=
  match lookupRaw c.cache k with
  | none => (c, [], false)
  | some v => ({ c with cache := eraseKey c.cache k }, [v], true)

/-- `clear()`: every held value goes through the release path, oldest first. -/
def clear (c : LRUCache κ ν) : LRUCache κ ν × List ν :=
  ({ c with cache := [] }, c.cache.map Prod.snd)

/-- `size`. -/
def size (c : LRUCache κ ν) : Nat :=
  c.cache.length

end LRUCache

/-! ## View transform (src/yolo-label-editor/js/main.js)

`currentImageWidth/Height`, the canvas device-pixel size, the zoom factor and
the presence of a decoded bitmap are module globals in the source; here they
are explicit arguments. -/

/-- The record returned by `getViewTransform()`. -/
structure ViewXf where
  scale : ℚ
  offsetX : ℚ
  offsetY : ℚ
  deriving DecidableEq, Repr

/-- `getFitScale(canvasPxW, canvasPxH)`. -/
def getFitScale (hasBitmap : Bool) (imgW imgH canvasW canvasH : ℚ) : ℚ :=
  if hasBitmap = false ∨ imgW ≤ 0 ∨ imgH ≤ 0 then 1
  else min (canvasW / imgW) (canvasH / imgH)

/-- `getViewTransform()`: effective scale and centering offsets. -/
def getViewTransform (hasBitmap : Bool) (imgW imgH canvasW canvasH zoom : ℚ) : ViewXf :=
  let fit := getFitScale hasBitmap imgW imgH canvasW canvasH
  let scale := fit * zoom
  let drawW := imgW * scale
  let drawH := imgH * scale
  { scale := scale, offsetX := (canvasW - drawW) / 2, offsetY := (canvasH - drawH) / 2 }

/-- `canvasPxToImagePx(canvasX, canvasY)` (screen → image). -/
def canvasPxToImagePx (hasBitmap : Bool) (imgW imgH canvasW canvasH zoom : ℚ) (p : ℚ × ℚ) :
    ℚ × ℚ :=
  let t := getViewTransform hasBitmap imgW imgH canvasW canvasH zoom
  ((p.1 - t.offsetX) / t.scale, (p.2 - t.offsetY) / t.scale)

/-- `imagePxToCanvasPx(imgX, imgY)` (image → screen). -/
def imagePxToCanvasPx (hasBitmap : Bool) (imgW imgH canvasW canvasH zoom : ℚ) (p : ℚ × ℚ) :
    ℚ × ℚ :=
  let t := getViewTransform hasBitmap imgW imgH canvasW canvasH zoom
  (t.offsetX + p.1 * t.scale, t.offsetY + p.2 * t.scale)

/-! ## Reference-level model of the reading accessors

`getCurrentBoxes` executes `return state.boxes` — it hands out the live
array of live box objects — and `getBoxesForSave` executes
`return state.boxes.filter(...)` — a fresh array whose elements are the live
box objects.  To make aliasing observable, box objects live in an explicit
store addressed by `Nat`, and the session arrays hold addresses. -/

/-- One image's session data at the reference level: the box store and the
address arrays `state.boxes` / `state.originalBoxes`. -/
structure SessionHeap where
  store : List (Nat × Box)
  boxRefs : List Nat
  origRefs : List Nat
  deriving DecidableEq, Repr

namespace SessionHeap

/-- Dereference a box address. -/
def readBox (s : SessionHeap) (a : Nat) : Option Box :=
  (s.store.find? fun p => p.1 == a).map Prod.snd

/-- An external mutation of a box object through a reference the caller
holds (e.g. `box.deleted = true` on a box obtained from a getter). -/
def writeBox (s : SessionHeap) (a : Nat) (b : Box) : SessionHeap :=
  { s with store := s.store.map fun p => if p.1 == a then (a, b) else p }

/-- `getCurrentBoxes()` at the reference level: the source returns
`state.boxes` itself. -/
def getCurrentBoxesRefs (s : SessionHeap) : List Nat :=
  s.boxRefs

/-- `getBoxesForSave()` at the reference level: a fresh array produced by
`filter`, holding the live (non-deleted) box objects themselves. -/
def getBoxesForSaveRefs (s : SessionHeap) : List Nat :=
  s.boxRefs.filter fun a =>
    match readBox s a with
    | some b => !b.deleted
    | none => false

/-- The session's stored working collection, as values. -/
def workingBoxes (s : SessionHeap) : List (Option Box) :=
  s.boxRefs.map s.readBox

end SessionHeap

/-! ## Derived definitions used by the statements and proofs -/

namespace LabelParser

/-- The fraction block of `fixed6Nat n`: six characters, all digits, whose
most-significant-first value is `n % 1000000`. -/
def fracBlock (n : Nat) : List Char :=
  List.replicate (6 - (natToChars (n % 1000000)).length) '0' ++ natToChars (n % 1000000)

/-- The box that re-parsing a serialized box yields: fresh line-index id,
same class, every coordinate rounded to six decimals. -/
def roundBox (i : Nat) (b : Box) : Box :=
  { id := i, classId := b.classId, xCenter := round6Val b.xCenter,
    yCenter := round6Val b.yCenter, width := round6Val b.width,
    height := round6Val b.height, deleted := false, selected := false, lineIndex := i }

/-- The documented valid ranges for a box, plus not-deleted (the premise of
the round-trip property). -/
def validBox (b : Box) : Prop :=
  0 ≤ b.classId ∧ 0 ≤ b.xCenter ∧ b.xCenter ≤ 1 ∧ 0 ≤ b.yCenter ∧ b.yCenter ≤ 1 ∧
    0 < b.width ∧ b.width ≤ 1 ∧ 0 < b.height ∧ b.height ≤ 1 ∧ b.deleted = false

/-- The claim's line-acceptance condition, stated independently of the parse
loop: the (trimmed) line is non-empty, does not start with `#`, has at least
five whitespace tokens, and the first five parse as an integer `classId ≥ 0`
and floats within the documented ranges. -/
def claimAccepts (line : List Char) : Bool :=
  (decide (line ≠ [])) &&
  (decide (line.head? ≠ some '#')) &&
  (decide (5 ≤ (tokens line).length)) &&
  (match (tokens line).take 5 with
   | [p0, p1, p2, p3, p4] =>
     (match jsParseInt p0 with
      | some cid => decide (0 ≤ cid)
      | none => false) &&
     (match jsParseFloat p1 with
      | some x => decide (0 ≤ x ∧ x ≤ 1)
      | none => false) &&
     (match jsParseFloat p2 with
      | some y => decide (0 ≤ y ∧ y ≤ 1)
      | none => false) &&
     (match jsParseFloat p3 with
      | some w => decide (0 < w ∧ w ≤ 1)
      | none => false) &&
     (match jsParseFloat p4 with
      | some h => decide (0 < h ∧ h ≤ 1)
      | none => false)
   | _ => false)

end LabelParser

namespace StateManager

/-- One mutating call of the `StateManager` API (the reachability step
relation for stack-bound invariants). -/
inductive Step : StateManager → StateManager → Prop
  | initImageState (s : StateManager) (index : Int) (boxes : List Box) :
      Step s (initImageState s index boxes)
  | setCurrentIndex (s : StateManager) (index : Int) : Step s (setCurrentIndex s index)
  | setCurrentBoxes (s : StateManager) (boxes : List Box) : Step s (setCurrentBoxes s boxes)
  | recordAction (s : StateManager) (type : String) (affected : List Box) (now : Nat) :
      Step s (recordAction s type affected now)
  | undo (s : StateManager) : Step s (undo s).1
  | redo (s : StateManager) : Step s (redo s).1
  | deleteSelected (s : StateManager) (now : Nat) : Step s (deleteSelected s now).1
  | restoreDeleted (s : StateManager) (onlySelected : Bool) (now : Nat) :
      Step s (restoreDeleted s onlySelected now).1
  | selectAll (s : StateManager) : Step s (selectAll s)
  | clearSelection (s : StateManager) : Step s (clearSelection s)
  | toggleBoxSelection (s : StateManager) (bid : Nat) : Step s (toggleBoxSelection s bid)
  | selectBox (s : StateManager) (bid : Nat) : Step s (selectBox s bid)
  | markSaved (s : StateManager) : Step s (markSaved s)
  | markSavedAt (s : StateManager) (index : Int) : Step s (markSavedAt s index)
  | clearImageState (s : StateManager) (index : Int) : Step s (clearImageState s index)
  | clearAll (s : StateManager) : Step s (clearAll s)
  | resetCurrent (s : StateManager) : Step s (resetCurrent s)

/-- The stack-size invariant: in every stored image state, the undo and redo
stacks together hold at most `maxStackSize` actions. -/
def StackInv (s : StateManager) : Prop :=
  ∀ p ∈ s.imageStates, p.2.undoStack.length + p.2.redoStack.length ≤ maxStackSize

/-- One delete/restore action pair on the current image (selecting everything
first so each half of the pair records an action). -/
def drPair (s : StateManager) : StateManager :=
  ((s.selectAll.deleteSelected 0).1.restoreDeleted false 0).1

/-- `n` sequential delete/restore pairs. -/
def drPairs : Nat → StateManager → StateManager
  | 0, s => s
  | n + 1, s => drPairs n (drPair s)

/-- A concrete live box for the scenario states. -/
def demoBox : Box :=
  { id := 0, classId := 0, xCenter := 1/2, yCenter := 1/2, width := 1/5,
    height := 1/5, deleted := false, selected := false, lineIndex := 0 }

/-- A session opened on image 0 holding the single `demoBox`. -/
def demoState : StateManager :=
  initImageState init 0 [demoBox]

/-- `demoBox` with its selection flag set. -/
def selDemoBox : Box :=
  { demoBox with selected := true }

/-- `demoBox` after a delete. -/
def deletedDemoBox : Box :=
  { demoBox with deleted := true }

/-- A recorded delete action affecting `demoBox`. -/
def delAction : EditAction :=
  { type := actDelete, boxes := [demoBox], timestamp := 0 }

/-- An image state holding one deleted box with `delAction` undoable. -/
def undoReadyImage : ImageState :=
  { boxes := [deletedDemoBox], originalBoxes := [demoBox],
    undoStack := [delAction], redoStack := [] }

/-- A session whose current image is `undoReadyImage`. -/
def undoReadyState : StateManager :=
  { currentIndex := 0, imageStates := [(0, undoReadyImage)], globalModified := [0] }

/-- An image state whose undo stack is full (50 entries). -/
def fullStackImage : ImageState :=
  { boxes := [demoBox], originalBoxes := [demoBox],
    undoStack := List.replicate 50 delAction, redoStack := [] }

/-- A session whose current image has a full undo stack. -/
def fullStackState : StateManager :=
  { currentIndex := 0, imageStates := [(0, fullStackImage)], globalModified := [] }

end StateManager

namespace LRUCache

/-- Folding `set` over a list of key/value pairs, accumulating every value
sent through the release path. -/
def setMany {κ ν : Type} [DecidableEq κ] (c : LRUCache κ ν) (kvs : List (κ × ν)) :
    LRUCache κ ν × List ν :=
  kvs.foldl (fun acc p => ((acc.1.set p.1 p.2).1, acc.2 ++ (acc.1.set p.1 p.2).2)) (c, [])

end LRUCache

/-- A concrete heap for the aliasing counterexample: the working array and the
original-snapshot array point at distinct clones, as `initImageState` builds
them. -/
def demoHeap : SessionHeap :=
  { store := [(0, StateManager.demoBox), (1, StateManager.demoBox)]
    boxRefs := [0]
    origRefs := [1] }

/-- A box that satisfies every documented valid range (its width `10⁻⁷` is
positive) but whose width formats to `0.000000` at six decimals. -/
def cexBox : Box :=
  { id := 0, classId := 0, xCenter := 1/2, yCenter := 1/2, width := 1/10000000,
    height := 1/2, deleted := false, selected := false, lineIndex := 0 }

/-- The two boxes of the documented concrete scenario. -/
def rtBoxes : List Box :=
  [{ id := 0, classId := 0, xCenter := 1/2, yCenter := 1/2, width := 1/5,
     height := 2/5, deleted := false, selected := false, lineIndex := 0 },
   { id := 1, classId := 2, xCenter := 1/10, yCenter := 1/10, width := 1/20,
     height := 1/20, deleted := false, selected := false, lineIndex := 1 }]

/-- The documented out-of-range line (`xCenter = 1.5`). -/
def cexLine : String := "1 1.5 0.5 0.2 0.2"

/-! ## Supporting lemmas: digit strings and the JS numeric grammars -/

theorem isDigitC_of_isWs {c : Char} (h : isWs c = true) : isDigitC c = false := by
  simp only [isWs, Bool.or_eq_true, beq_iff_eq] at h
  rcases h with ((((h | h) | h) | h) | h) | h <;> subst h <;> decide

theorem not_isWs_of_isDigitC {c : Char} (h : isDigitC c = true) : isWs c = false := by
  cases hw : isWs c
  · rfl
  · rw [isDigitC_of_isWs hw] at h
    exact absurd h (by simp)

theorem ne_of_isDigitC {c d : Char} (h : isDigitC c = true) (hd : isDigitC d = false) :
    c ≠ d := by
  intro e
  rw [e, hd] at h
  exact absurd h (by simp)

theorem digitChar_isDigit {d : Nat} (h : d < 10) : isDigitC (digitChar d) = true := by
  interval_cases d <;> decide

theorem digitVal_digitChar {d : Nat} (h : d < 10) : digitVal (digitChar d) = d := by
  interval_cases d <;> decide

theorem natCharsRev_all_digits :
    ∀ fuel n, n < fuel → ∀ c ∈ natCharsRev fuel n, isDigitC c = true := by
  intro fuel
  induction fuel with
  | zero => intro n hn; omega
  | succ f ih =>
    intro n hn c hc
    by_cases h10 : n < 10
    · simp only [natCharsRev, if_pos h10, List.mem_singleton] at hc
      exact hc ▸ digitChar_isDigit h10
    · simp only [natCharsRev, if_neg h10, List.mem_cons] at hc
      rcases hc with hc | hc
      · exact hc ▸ digitChar_isDigit (Nat.mod_lt _ (by omega))
      · exact ih (n / 10) (by omega) c hc

theorem lsbVal_cons (c : Char) (l : List Char) :
    lsbVal (c :: l) = 10 * lsbVal l + digitVal c := rfl

theorem natCharsRev_lsbVal : ∀ fuel n, n < fuel → lsbVal (natCharsRev fuel n) = n := by
  intro fuel
  induction fuel with
  | zero => intro n hn; omega
  | succ f ih =>
    intro n hn
    by_cases h10 : n < 10
    · simp only [natCharsRev, if_pos h10]
      simp [lsbVal_cons, lsbVal, digitVal_digitChar h10]
    · simp only [natCharsRev, if_neg h10]
      rw [lsbVal_cons, ih (n / 10) (by omega), digitVal_digitChar (Nat.mod_lt _ (by omega))]
      omega

theorem natCharsRev_ne_nil : ∀ fuel n, n < fuel → natCharsRev fuel n ≠ [] := by
  intro fuel
  cases fuel with
  | zero => intro n hn; omega
  | succ f =>
    intro n _
    by_cases h10 : n < 10 <;> simp [natCharsRev, h10]

theorem natToChars_all_digits (n : Nat) : ∀ c ∈ natToChars n, isDigitC c = true := by
  intro c hc
  rw [natToChars, List.mem_reverse] at hc
  exact natCharsRev_all_digits _ n (Nat.lt_succ_self n) c hc

theorem natToChars_ne_nil (n : Nat) : natToChars n ≠ [] := by
  rw [natToChars]
  simpa using natCharsRev_ne_nil _ n (Nat.lt_succ_self n)

theorem digitsVal_reverse (l : List Char) : digitsVal l.reverse = lsbVal l := by
  simp [digitsVal, lsbVal, List.foldl_reverse]

theorem digitsVal_natToChars (n : Nat) : digitsVal (natToChars n) = n := by
  rw [natToChars, digitsVal_reverse]
  exact natCharsRev_lsbVal _ n (Nat.lt_succ_self n)

theorem takeDigits_cons (c : Char) (rest : List Char) :
    takeDigits (c :: rest) =
      if isDigitC c then ((c :: (takeDigits rest).1), (takeDigits rest).2)
      else ([], c :: rest) := by
  by_cases h : isDigitC c <;> simp [takeDigits, h]

theorem takeDigits_append_digits (ds rest : List Char)
    (h : ∀ c ∈ ds, isDigitC c = true) :
    takeDigits (ds ++ rest) = (ds ++ (takeDigits rest).1, (takeDigits rest).2) := by
  induction ds with
  | nil => simp
  | cons c t ih =>
    have hc : isDigitC c = true := h c (List.mem_cons_self c t)
    have ht : ∀ x ∈ t, isDigitC x = true := fun x hx => h x (List.mem_cons_of_mem c hx)
    simp [takeDigits_cons, hc, ih ht]

theorem takeDigits_of_head_not_digit (cs : List Char)
    (h : ∀ c, cs.head? = some c → isDigitC c = false) :
    takeDigits cs = ([], cs) := by
  cases cs with
  | nil => rfl
  | cons c rest =>
    have hc : isDigitC c = false := h c rfl
    simp [takeDigits_cons, hc]

theorem takeDigits_all (ds : List Char) (h : ∀ c ∈ ds, isDigitC c = true) :
    takeDigits ds = (ds, []) := by
  have := takeDigits_append_digits ds [] h
  simpa [takeDigits] using this

theorem parseSignChars_of_no_sign (cs : List Char)
    (h : ∀ c, cs.head? = some c → c ≠ '-' ∧ c ≠ '+') :
    parseSignChars cs = (false, cs) := by
  cases cs with
  | nil => rfl
  | cons c rest =>
    have hc := h c rfl
    simp [parseSignChars, hc.1, hc.2]

theorem dropWhile_eq_self_of_head (p : Char → Bool) (cs : List Char)
    (h : ∀ c, cs.head? = some c → p c = false) :
    cs.dropWhile p = cs := by
  cases cs with
  | nil => rfl
  | cons c rest =>
    have hc : p c = false := h c rfl
    simp [List.dropWhile_cons, hc]

theorem jsParseInt_digits (ds : List Char) (h : ∀ c ∈ ds, isDigitC c = true)
    (hne : ds ≠ []) : jsParseInt ds = some ((digitsVal ds : Int)) := by
  obtain ⟨c, t, rfl⟩ : ∃ c t, ds = c :: t := by
    cases ds with
    | nil => exact absurd rfl hne
    | cons c t => exact ⟨c, t, rfl⟩
  have hc : isDigitC c = true := h c (List.mem_cons_self c t)
  have hdw : (c :: t).dropWhile isWs = c :: t :=
    dropWhile_eq_self_of_head _ _ (by rintro x hx; cases hx; exact not_isWs_of_isDigitC hc)
  have hsign : parseSignChars (c :: t) = (false, c :: t) :=
    parseSignChars_of_no_sign _ (by
      rintro x hx
      cases hx
      exact ⟨ne_of_isDigitC hc (by decide), ne_of_isDigitC hc (by decide)⟩)
  rw [jsParseInt, hdw, hsign]
  simp [takeDigits_all _ h, hne]

theorem jsParseInt_natToChars (n : Nat) :
    jsParseInt (natToChars n) = some (n : Int) := by
  rw [jsParseInt_digits _ (natToChars_all_digits n) (natToChars_ne_nil n),
    digitsVal_natToChars]

/-! ## Supporting lemmas: whitespace splitting and joining -/

theorem tokensAux_nonws (t : List Char) (h : ∀ c ∈ t, isWs c = false) :
    ∀ rest acc, tokensAux (t ++ rest) acc = tokensAux rest (t.reverse ++ acc) := by
  induction t with
  | nil => intro rest acc; simp
  | cons c t' ih =>
    intro rest acc
    have hc : isWs c = false := h c (List.mem_cons_self c t')
    have ht : ∀ x ∈ t', isWs x = false := fun x hx => h x (List.mem_cons_of_mem c hx)
    rw [List.cons_append]
    rw [show tokensAux (c :: (t' ++ rest)) acc = tokensAux (t' ++ rest) (c :: acc) by
      simp [tokensAux, hc]]
    rw [ih ht rest (c :: acc)]
    simp

theorem tokensAux_space (rest : List Char) (acc : List Char) (h : acc ≠ []) :
    tokensAux (' ' :: rest) acc = acc.reverse :: tokensAux rest [] := by
  simp [tokensAux, show isWs ' ' = true from rfl, h]

theorem tokens_append_token (t rest : List Char) (hne : t ≠ [])
    (h : ∀ c ∈ t, isWs c = false) :
    tokens (t ++ ' ' :: rest) = t :: tokens rest := by
  rw [tokens, tokensAux_nonws t h (' ' :: rest) []]
  rw [tokensAux_space _ _ (by simpa using hne)]
  simp [tokens]

theorem tokens_single (t : List Char) (hne : t ≠ []) (h : ∀ c ∈ t, isWs c = false) :
    tokens t = [t] := by
  have h0 := tokensAux_nonws t h [] []
  rw [List.append_nil] at h0
  rw [tokens, h0, tokensAux]
  simp [hne]

theorem splitOnNl_ne_nil (cs : List Char) : splitOnNl cs ≠ [] := by
  induction cs with
  | nil => simp [splitOnNl]
  | cons c t ih =>
    by_cases h : c = '\n'
    · simp [splitOnNl, h]
    · simp only [splitOnNl, h, if_false]
      split <;> simp

theorem splitOnNl_no_nl (l : List Char) (h : '\n' ∉ l) : splitOnNl l = [l] := by
  induction l with
  | nil => rfl
  | cons c t ih =>
    have hc : ¬(c = '\n') := fun e => h (e ▸ List.mem_cons_self c t)
    have ht : '\n' ∉ t := fun e => h (List.mem_cons_of_mem c e)
    simp only [splitOnNl, hc, if_false, ih ht]

theorem splitOnNl_line_append (l rest : List Char) (h : '\n' ∉ l) :
    splitOnNl (l ++ '\n' :: rest) = l :: splitOnNl rest := by
  induction l with
  | nil => simp [splitOnNl]
  | cons c t ih =>
    have hc : ¬(c = '\n') := fun e => h (e ▸ List.mem_cons_self c t)
    have ht : '\n' ∉ t := fun e => h (List.mem_cons_of_mem c e)
    rw [List.cons_append]
    rw [show splitOnNl (c :: (t ++ '\n' :: rest)) =
        (match splitOnNl (t ++ '\n' :: rest) with
          | [] => [[c]]
          | r :: rs => (c :: r) :: rs) by simp [splitOnNl, hc]]
    rw [ih ht]

theorem joinNl_cons_cons (l l2 : List Char) (ls : List (List Char)) :
    LabelParser.joinNl (l :: l2 :: ls) = l ++ '\n' :: LabelParser.joinNl (l2 :: ls) := rfl

theorem splitOnNl_joinNl :
    ∀ lines : List (List Char), lines ≠ [] → (∀ m ∈ lines, '\n' ∉ m) →
      splitOnNl (LabelParser.joinNl lines) = lines := by
  intro lines
  induction lines with
  | nil => intro h; exact absurd rfl h
  | cons l ls ih =>
    intro _ h
    cases ls with
    | nil =>
      show splitOnNl (LabelParser.joinNl [l]) = [l]
      rw [LabelParser.joinNl]
      exact splitOnNl_no_nl l (h l (List.mem_cons_self l []))
    | cons l2 ls2 =>
      rw [joinNl_cons_cons, splitOnNl_line_append l _ (h l (List.mem_cons_self l _))]
      rw [ih (by simp) fun m hm => h m (List.mem_cons_of_mem l hm)]

theorem joinNl_ne_nil :
    ∀ lines : List (List Char), lines ≠ [] → (∀ m ∈ lines, m ≠ []) →
      LabelParser.joinNl lines ≠ [] := by
  intro lines
  cases lines with
  | nil => intro h; exact absurd rfl h
  | cons l ls =>
    intro _ h
    cases ls with
    | nil => exact h l (List.mem_cons_self l [])
    | cons l2 ls2 =>
      rw [joinNl_cons_cons]
      simp

theorem joinNl_head? (l : List Char) (ls : List (List Char)) (hl : l ≠ []) :
    (LabelParser.joinNl (l :: ls)).head? = l.head? := by
  cases ls with
  | nil => rfl
  | cons l2 ls2 =>
    obtain ⟨c, t, rfl⟩ : ∃ c t, l = c :: t := by
      cases l with
      | nil => exact absurd rfl hl
      | cons c t => exact ⟨c, t, rfl⟩
    rw [joinNl_cons_cons]
    simp

theorem joinNl_getLast? :
    ∀ lines : List (List Char), lines ≠ [] → (∀ m ∈ lines, m ≠ []) →
      ∃ last, lines.getLast? = some last ∧
        (LabelParser.joinNl lines).getLast? = last.getLast? := by
  intro lines
  induction lines with
  | nil => intro h; exact absurd rfl h
  | cons l ls ih =>
    intro _ h
    cases ls with
    | nil => exact ⟨l, by simp, by rfl⟩
    | cons l2 ls2 =>
      obtain ⟨last, h1, h2⟩ := ih (by simp) fun m hm => h m (List.mem_cons_of_mem l hm)
      refine ⟨last, by rw [List.getLast?_cons_cons, h1], ?_⟩
      rw [joinNl_cons_cons, List.getLast?_append, ← h2]
      have hJ : LabelParser.joinNl (l2 :: ls2) ≠ [] :=
        joinNl_ne_nil _ (by simp) fun m hm => h m (List.mem_cons_of_mem l hm)
      obtain ⟨c, t, he⟩ : ∃ c t, LabelParser.joinNl (l2 :: ls2) = c :: t := by
        cases hc : LabelParser.joinNl (l2 :: ls2) with
        | nil => exact absurd hc hJ
        | cons c t => exact ⟨c, t, rfl⟩
      rw [he]
      simp [List.getLast?_cons_cons]
      cases hg : (c :: t).getLast? with
      | none => simp at hg
      | some x => simp

theorem jsTrim_eq_self (cs : List Char) (h1 : ∀ c, cs.head? = some c → isWs c = false)
    (h2 : ∀ c, cs.getLast? = some c → isWs c = false) : jsTrim cs = cs := by
  rw [jsTrim, dropWhile_eq_self_of_head _ _ h1, dropWhile_eq_self_of_head, List.reverse_reverse]
  intro c hc
  apply h2
  rwa [← List.head?_reverse]

/-! ## Supporting lemmas: fixed-point formatting and `parseFloat` -/

theorem natCharsRev_length_le :
    ∀ fuel n k, n < fuel → n < 10 ^ k → 0 < k → (natCharsRev fuel n).length ≤ k := by
  intro fuel
  induction fuel with
  | zero => intro n k hn; omega
  | succ f ih =>
    intro n k hn hk hk0
    by_cases h10 : n < 10
    · simp only [natCharsRev, if_pos h10, List.length_singleton]
      omega
    · simp only [natCharsRev, if_neg h10, List.length_cons]
      have hk2 : 2 ≤ k := by
        by_contra hcon
        have : k = 1 := by omega
        subst this
        simp at hk
        omega
      have hpow : 10 ^ k = 10 * 10 ^ (k - 1) := by
        conv_lhs => rw [show k = 1 + (k - 1) by omega]
        rw [pow_add, pow_one]
      have hdiv : n / 10 < 10 ^ (k - 1) := by
        rw [Nat.div_lt_iff_lt_mul (by omega)]
        omega
      have := ih (n / 10) (k - 1) (by omega) hdiv (by omega)
      omega

theorem natToChars_length_le (n k : Nat) (hn : n < 10 ^ k) (hk : 0 < k) :
    (natToChars n).length ≤ k := by
  rw [natToChars, List.length_reverse]
  exact natCharsRev_length_le _ n k (Nat.lt_succ_self n) hn hk

theorem digitsVal_replicate_zeros (k : Nat) : digitsVal (List.replicate k '0') = 0 := by
  induction k with
  | zero => rfl
  | succ m ih =>
    rw [List.replicate_succ]
    show List.foldl (fun a c => 10 * a + digitVal c) (10 * 0 + digitVal '0') _ = 0
    have : 10 * 0 + digitVal '0' = 0 := rfl
    rw [this]
    exact ih

theorem digitsVal_zeros_append (k : Nat) (l : List Char) :
    digitsVal (List.replicate k '0' ++ l) = digitsVal l := by
  rw [digitsVal, List.foldl_append]
  have h0 : List.foldl (fun a c => 10 * a + digitVal c) 0 (List.replicate k '0') = 0 :=
    digitsVal_replicate_zeros k
  rw [h0]
  rfl

namespace LabelParser

theorem fixed6Nat_eq (n : Nat) :
    fixed6Nat n = natToChars (n / 1000000) ++ '.' :: fracBlock n := rfl

theorem fracBlock_all_digits (n : Nat) : ∀ c ∈ fracBlock n, isDigitC c = true := by
  intro c hc
  rw [fracBlock, List.mem_append] at hc
  rcases hc with hc | hc
  · rw [List.eq_of_mem_replicate hc]
    decide
  · exact natToChars_all_digits _ c hc

theorem fracBlock_ne_nil (n : Nat) : fracBlock n ≠ [] := by
  rw [fracBlock]
  intro h
  rcases List.append_eq_nil.mp h with ⟨_, h2⟩
  exact natToChars_ne_nil _ h2

theorem fracBlock_length (n : Nat) : (fracBlock n).length = 6 := by
  rw [fracBlock, List.length_append, List.length_replicate]
  have : (natToChars (n % 1000000)).length ≤ 6 :=
    natToChars_length_le _ 6 (Nat.mod_lt _ (by norm_num)) (by norm_num)
  omega

theorem fracBlock_val (n : Nat) : digitsVal (fracBlock n) = n % 1000000 := by
  rw [fracBlock, digitsVal_zeros_append, digitsVal_natToChars]

theorem fixed6Nat_ne_nil (n : Nat) : fixed6Nat n ≠ [] := by
  rw [fixed6Nat_eq]
  intro h
  rcases List.append_eq_nil.mp h with ⟨_, h2⟩
  exact List.cons_ne_nil _ _ h2

theorem fixed6Nat_mem (n : Nat) : ∀ c ∈ fixed6Nat n, isDigitC c = true ∨ c = '.' := by
  intro c hc
  rw [fixed6Nat_eq, List.mem_append] at hc
  rcases hc with hc | hc
  · exact Or.inl (natToChars_all_digits _ c hc)
  · rcases List.mem_cons.mp hc with hc | hc
    · exact Or.inr hc
    · exact Or.inl (fracBlock_all_digits n c hc)

theorem fixed6Nat_head_digit (n : Nat) :
    ∀ c, (fixed6Nat n).head? = some c → isDigitC c = true := by
  intro c hc
  rw [fixed6Nat_eq] at hc
  obtain ⟨d, t, he⟩ : ∃ d t, natToChars (n / 1000000) = d :: t := by
    cases h : natToChars (n / 1000000) with
    | nil => exact absurd h (natToChars_ne_nil _)
    | cons d t => exact ⟨d, t, rfl⟩
  rw [he] at hc
  simp only [List.cons_append, List.head?_cons, Option.some_inj] at hc
  rw [← hc]
  exact natToChars_all_digits _ d (by rw [he]; exact List.mem_cons_self d t)

theorem fixed6Nat_getLast_digit (n : Nat) :
    ∀ c, (fixed6Nat n).getLast? = some c → isDigitC c = true := by
  intro c hc
  rw [fixed6Nat_eq, List.getLast?_append] at hc
  have hfb : (fracBlock n).getLast? ≠ none := by
    cases h : fracBlock n with
    | nil => exact absurd h (fracBlock_ne_nil n)
    | cons d t => simp [List.getLast?]
  obtain ⟨d, hd⟩ : ∃ d, (fracBlock n).getLast? = some d := by
    cases h : (fracBlock n).getLast? with
    | none => exact absurd h hfb
    | some d => exact ⟨d, rfl⟩
  rw [List.getLast?_cons, hd] at hc
  simp only [Option.getD_some, Option.or_some, Option.some_inj] at hc
  rw [← hc]
  exact fracBlock_all_digits n d (List.mem_of_mem_getLast? (Option.mem_def.mpr hd))

theorem floatMag_fixed6Nat (n : Nat) :
    floatMag (fixed6Nat n) = some ((n : ℚ) / 1000000) := by
  rw [fixed6Nat_eq]
  have hA := natToChars_all_digits (n / 1000000)
  have htd : takeDigits (natToChars (n / 1000000) ++ '.' :: fracBlock n) =
      (natToChars (n / 1000000), '.' :: fracBlock n) := by
    rw [takeDigits_append_digits _ _ hA,
      takeDigits_of_head_not_digit ('.' :: fracBlock n) (by rintro c ⟨rfl⟩; decide)]
    simp
  have hap : afterPoint ('.' :: fracBlock n) = some (fracBlock n, []) := by
    rw [afterPoint, if_pos rfl, takeDigits_all _ (fracBlock_all_digits n)]
  rw [floatMag]
  simp only [htd, hap]
  rw [if_neg (by simp [natToChars_ne_nil])]
  have hexp : expVal ([] : List Char) = 0 := rfl
  rw [hexp]
  have htp : tenPow 0 = 1 := by simp [tenPow]
  rw [htp, mul_one]
  rw [fracVal, fracBlock_val, fracBlock_length, digitsVal_natToChars]
  have key : ((n / 1000000 : Nat) : ℚ) * 1000000 + ((n % 1000000 : Nat) : ℚ) = (n : ℚ) := by
    exact_mod_cast Nat.div_add_mod' n 1000000
  have hp : ((10 : ℚ) ^ (6 : ℕ)) = 1000000 := by norm_num
  rw [hp, Option.some_inj]
  field_simp
  linarith [key]

theorem round6_nonneg (q : ℚ) (h : 0 ≤ q) : 0 ≤ round6 q := by
  rw [round6]
  exact Int.le_floor.mpr (by push_cast; nlinarith)

theorem round6_le_million (q : ℚ) (h : q ≤ 1) : round6 q ≤ 1000000 := by
  rw [round6]
  have h1 : q * 1000000 + 1 / 2 ≤ 1000000 + 1 / 2 := by linarith
  calc ⌊q * 1000000 + 1 / 2⌋ ≤ ⌊(1000000 : ℚ) + 1 / 2⌋ := Int.floor_le_floor h1
    _ = 1000000 := by
        rw [Int.floor_eq_iff]
        norm_num

theorem round6Val_nonneg (q : ℚ) (h : 0 ≤ q) : 0 ≤ round6Val q := by
  rw [round6Val]
  have := round6_nonneg q h
  positivity

theorem round6Val_le_one (q : ℚ) (h : q ≤ 1) : round6Val q ≤ 1 := by
  rw [round6Val, div_le_one (by norm_num)]
  exact_mod_cast round6_le_million q h

theorem round6Val_close (q : ℚ) : |round6Val q - q| ≤ 1 / 2000000 := by
  have h1 : ((round6 q : ℚ)) ≤ q * 1000000 + 1 / 2 := Int.floor_le _
  have h2 : q * 1000000 + 1 / 2 < (round6 q : ℚ) + 1 := Int.lt_floor_add_one _
  rw [abs_le, round6Val]
  constructor <;> [linarith; linarith]

theorem fixed6_of_nonneg (q : ℚ) (h : 0 ≤ q) :
    fixed6 q = fixed6Nat (round6 q).toNat := by
  rw [fixed6, if_neg (not_lt.mpr h)]

theorem jsParseFloat_fixed6 (q : ℚ) (h : 0 ≤ q) :
    jsParseFloat (fixed6 q) = some (round6Val q) := by
  rw [fixed6_of_nonneg q h]
  have hhead : ∀ c, (fixed6Nat (round6 q).toNat).head? = some c → isDigitC c = true :=
    fixed6Nat_head_digit _
  have hdw : (fixed6Nat (round6 q).toNat).dropWhile isWs = fixed6Nat (round6 q).toNat :=
    dropWhile_eq_self_of_head _ _ fun c hc => not_isWs_of_isDigitC (hhead c hc)
  have hsign : parseSignChars (fixed6Nat (round6 q).toNat) =
      (false, fixed6Nat (round6 q).toNat) := by
    apply parseSignChars_of_no_sign
    intro c hc
    exact ⟨ne_of_isDigitC (hhead c hc) (by decide), ne_of_isDigitC (hhead c hc) (by decide)⟩
  rw [jsParseFloat, hdw, hsign, floatMag_fixed6Nat]
  simp only [Option.map_some']
  rw [if_neg (by decide : ¬(false = true))]
  rw [round6Val, Option.some_inj]
  rw [show (((round6 q).toNat : Nat) : ℚ) = ((round6 q : ℤ) : ℚ) from by
    exact_mod_cast Int.toNat_of_nonneg (round6_nonneg q h)]

end LabelParser

/-! ## Supporting lemmas: serialized lines and their re-parse -/

theorem getLast?_cons_ne {α : Type} (c : α) (l : List α) (h : l ≠ []) :
    (c :: l).getLast? = l.getLast? := by
  cases l with
  | nil => exact absurd rfl h
  | cons d t => exact List.getLast?_cons_cons

theorem getLast?_append_right {α : Type} (l1 l2 : List α) (h : l2 ≠ []) :
    (l1 ++ l2).getLast? = l2.getLast? := by
  rw [List.getLast?_append]
  obtain ⟨x, hx⟩ : ∃ x, l2.getLast? = some x := by
    cases l2 with
    | nil => exact absurd rfl h
    | cons d t => cases hg : (d :: t).getLast? with
      | none => simp at hg
      | some x => exact ⟨x, rfl⟩
  rw [hx]
  rfl

namespace LabelParser

theorem fixed6_ne_nil (q : ℚ) (h : 0 ≤ q) : fixed6 q ≠ [] := by
  rw [fixed6_of_nonneg q h]
  exact fixed6Nat_ne_nil _

theorem fixed6_nonws (q : ℚ) (h : 0 ≤ q) : ∀ c ∈ fixed6 q, isWs c = false := by
  intro c hc
  rw [fixed6_of_nonneg q h] at hc
  rcases fixed6Nat_mem _ c hc with hd | hd
  · exact not_isWs_of_isDigitC hd
  · subst hd; decide

theorem fixed6_no_nl (q : ℚ) (h : 0 ≤ q) : '\n' ∉ fixed6 q := by
  intro hc
  have := fixed6_nonws q h '\n' hc
  simp [isWs] at this

theorem fixed6_getLast_digit (q : ℚ) (h : 0 ≤ q) :
    ∀ c, (fixed6 q).getLast? = some c → isDigitC c = true := by
  rw [fixed6_of_nonneg q h]
  exact fixed6Nat_getLast_digit _

theorem intToChars_of_nonneg (i : Int) (h : 0 ≤ i) : intToChars i = natToChars i.toNat :=
  if_neg (not_lt.mpr h)

theorem jsParseInt_intToChars (i : Int) (h : 0 ≤ i) :
    jsParseInt (intToChars i) = some i := by
  rw [intToChars_of_nonneg i h, jsParseInt_natToChars, Option.some_inj]
  exact Int.toNat_of_nonneg h

theorem intToChars_ne_nil (i : Int) (h : 0 ≤ i) : intToChars i ≠ [] := by
  rw [intToChars_of_nonneg i h]
  exact natToChars_ne_nil _

theorem intToChars_digits (i : Int) (h : 0 ≤ i) :
    ∀ c ∈ intToChars i, isDigitC c = true := by
  rw [intToChars_of_nonneg i h]
  exact natToChars_all_digits _

theorem serializeBox_eq (b : Box) :
    serializeBox b = intToChars b.classId ++
      ' ' :: (fixed6 b.xCenter ++
        ' ' :: (fixed6 b.yCenter ++
          ' ' :: (fixed6 b.width ++ ' ' :: fixed6 b.height))) := rfl

theorem serializeBox_ne_nil (b : Box) (h : 0 ≤ b.classId) : serializeBox b ≠ [] := by
  rw [serializeBox_eq]
  intro hcon
  rcases List.append_eq_nil.mp hcon with ⟨h1, _⟩
  exact intToChars_ne_nil b.classId h h1

theorem serializeBox_head_digit (b : Box) (h : 0 ≤ b.classId) :
    ∀ c, (serializeBox b).head? = some c → isDigitC c = true := by
  intro c hc
  rw [serializeBox_eq] at hc
  obtain ⟨d, t, he⟩ : ∃ d t, intToChars b.classId = d :: t := by
    cases hi : intToChars b.classId with
    | nil => exact absurd hi (intToChars_ne_nil b.classId h)
    | cons d t => exact ⟨d, t, rfl⟩
  rw [he] at hc
  simp only [List.cons_append, List.head?_cons, Option.some_inj] at hc
  rw [← hc]
  exact intToChars_digits b.classId h d (by rw [he]; exact List.mem_cons_self d t)

theorem serializeBox_getLast_digit (b : Box) (hh : 0 ≤ b.height) :
    ∀ c, (serializeBox b).getLast? = some c → isDigitC c = true := by
  intro c hc
  rw [serializeBox_eq] at hc
  rw [getLast?_append_right _ _ (List.cons_ne_nil _ _),
    getLast?_cons_ne _ _ (by
      intro hcon
      rcases List.append_eq_nil.mp hcon with ⟨_, h2⟩
      exact List.cons_ne_nil _ _ h2)] at hc
  rw [getLast?_append_right _ _ (List.cons_ne_nil _ _),
    getLast?_cons_ne _ _ (by
      intro hcon
      rcases List.append_eq_nil.mp hcon with ⟨_, h2⟩
      exact List.cons_ne_nil _ _ h2)] at hc
  rw [getLast?_append_right _ _ (List.cons_ne_nil _ _),
    getLast?_cons_ne _ _ (by
      intro hcon
      rcases List.append_eq_nil.mp hcon with ⟨_, h2⟩
      exact List.cons_ne_nil _ _ h2)] at hc
  rw [getLast?_append_right _ _ (List.cons_ne_nil _ _),
    getLast?_cons_ne _ _ (fixed6_ne_nil b.height hh)] at hc
  exact fixed6_getLast_digit b.height hh c hc

theorem serializeBox_mem (b : Box) (hc : 0 ≤ b.classId) (hx : 0 ≤ b.xCenter)
    (hy : 0 ≤ b.yCenter) (hw : 0 ≤ b.width) (hh : 0 ≤ b.height) :
    ∀ c ∈ serializeBox b, isDigitC c = true ∨ c = '.' ∨ c = ' ' := by
  intro c hmem
  rw [serializeBox_eq] at hmem
  have hfx := fixed6_of_nonneg b.xCenter hx
  have hfy := fixed6_of_nonneg b.yCenter hy
  have hfw := fixed6_of_nonneg b.width hw
  have hfh := fixed6_of_nonneg b.height hh
  simp only [List.mem_append, List.mem_cons] at hmem
  rcases hmem with h1 | h1 | h1 | h1 | h1 | h1 | h1 | h1 | h1
  · exact Or.inl (intToChars_digits b.classId hc c h1)
  · exact Or.inr (Or.inr h1)
  · rcases fixed6Nat_mem _ c (hfx ▸ h1) with hd | hd
    · exact Or.inl hd
    · exact Or.inr (Or.inl hd)
  · exact Or.inr (Or.inr h1)
  · rcases fixed6Nat_mem _ c (hfy ▸ h1) with hd | hd
    · exact Or.inl hd
    · exact Or.inr (Or.inl hd)
  · exact Or.inr (Or.inr h1)
  · rcases fixed6Nat_mem _ c (hfw ▸ h1) with hd | hd
    · exact Or.inl hd
    · exact Or.inr (Or.inl hd)
  · exact Or.inr (Or.inr h1)
  · rcases fixed6Nat_mem _ c (hfh ▸ h1) with hd | hd
    · exact Or.inl hd
    · exact Or.inr (Or.inl hd)

theorem serializeBox_no_nl (b : Box) (hc : 0 ≤ b.classId) (hx : 0 ≤ b.xCenter)
    (hy : 0 ≤ b.yCenter) (hw : 0 ≤ b.width) (hh : 0 ≤ b.height) :
    '\n' ∉ serializeBox b := by
  intro hmem
  rcases serializeBox_mem b hc hx hy hw hh '\n' hmem with h1 | h1 | h1
  · simp [isDigitC] at h1
  · exact absurd h1 (by decide)
  · exact absurd h1 (by decide)

theorem tokens_serializeBox (b : Box) (hc : 0 ≤ b.classId) (hx : 0 ≤ b.xCenter)
    (hy : 0 ≤ b.yCenter) (hw : 0 ≤ b.width) (hh : 0 ≤ b.height) :
    tokens (serializeBox b) =
      [intToChars b.classId, fixed6 b.xCenter, fixed6 b.yCenter, fixed6 b.width,
        fixed6 b.height] := by
  rw [serializeBox_eq]
  rw [tokens_append_token _ _ (intToChars_ne_nil _ hc)
    (fun c h => not_isWs_of_isDigitC (intToChars_digits _ hc c h))]
  rw [tokens_append_token _ _ (fixed6_ne_nil _ hx) (fixed6_nonws _ hx)]
  rw [tokens_append_token _ _ (fixed6_ne_nil _ hy) (fixed6_nonws _ hy)]
  rw [tokens_append_token _ _ (fixed6_ne_nil _ hw) (fixed6_nonws _ hw)]
  rw [tokens_single _ (fixed6_ne_nil _ hh) (fixed6_nonws _ hh)]

theorem parseLine_serializeBox (i : Nat) (b : Box) (hv : validBox b)
    (hwp : 0 < round6 b.width) (hhp : 0 < round6 b.height) :
    parseLine i (serializeBox b) = some (roundBox i b) := by
  obtain ⟨hcid, hx0, hx1, hy0, hy1, hw0, hw1, hh0, hh1, _⟩ := hv
  have hx0' := hx0
  have hw0' : (0 : ℚ) ≤ b.width := le_of_lt hw0
  have hh0' : (0 : ℚ) ≤ b.height := le_of_lt hh0
  have htrim : jsTrim (serializeBox b) = serializeBox b :=
    jsTrim_eq_self _
      (fun c h => not_isWs_of_isDigitC (serializeBox_head_digit b hcid c h))
      (fun c h => not_isWs_of_isDigitC (serializeBox_getLast_digit b hh0' c h))
  have hne : ¬(serializeBox b = []) := serializeBox_ne_nil b hcid
  have hhash : ¬((serializeBox b).head? = some '#') := by
    intro hcon
    exact absurd rfl (ne_of_isDigitC (serializeBox_head_digit b hcid '#' hcon) (by decide))
  simp only [parseLine, htrim]
  rw [if_neg hne, if_neg hhash]
  rw [tokens_serializeBox b hcid hx0 hy0 hw0' hh0']
  simp only [jsParseInt_intToChars b.classId hcid, jsParseFloat_fixed6 _ hx0,
    jsParseFloat_fixed6 _ hy0, jsParseFloat_fixed6 _ hw0', jsParseFloat_fixed6 _ hh0']
  have hwv : (0 : ℚ) < round6Val b.width := by
    rw [round6Val]
    apply div_pos _ (by norm_num)
    exact_mod_cast hwp
  have hhv : (0 : ℚ) < round6Val b.height := by
    rw [round6Val]
    apply div_pos _ (by norm_num)
    exact_mod_cast hhp
  rw [if_pos ⟨hcid, round6Val_nonneg _ hx0, round6Val_le_one _ hx1,
    round6Val_nonneg _ hy0, round6Val_le_one _ hy1, hwv, round6Val_le_one _ hw1,
    hhv, round6Val_le_one _ hh1⟩]
  rfl

end LabelParser

namespace LabelParser

theorem serializeChars_of_live (bs : List Box) (h : ∀ b ∈ bs, b.deleted = false) :
    serializeChars bs = joinNl (bs.map serializeBox) := by
  rw [serializeChars, List.filter_eq_self.mpr]
  intro b hb
  simp [h b hb]

theorem filterMap_parseLine_enumFrom (bs : List Box) :
    ∀ i, (∀ b ∈ bs, validBox b) →
      (∀ b ∈ bs, 0 < round6 b.width ∧ 0 < round6 b.height) →
      ((bs.map serializeBox).enumFrom i).filterMap (fun p => parseLine p.1 p.2) =
        (bs.enumFrom i).map fun p => roundBox p.1 p.2 := by
  induction bs with
  | nil => intro i _ _; rfl
  | cons b t ih =>
    intro i h1 h2
    have hb1 : validBox b := h1 b (List.mem_cons_self b t)
    have hb2 := h2 b (List.mem_cons_self b t)
    rw [List.map_cons, List.enumFrom_cons, List.enumFrom_cons, List.map_cons,
      List.filterMap_cons]
    rw [show parseLine (i, serializeBox b).1 (i, serializeBox b).2 = some (roundBox i b) from
      parseLine_serializeBox i b hb1 hb2.1 hb2.2]
    rw [ih (i + 1) (fun x hx => h1 x (List.mem_cons_of_mem b hx))
      (fun x hx => h2 x (List.mem_cons_of_mem b hx))]

/-- The full parse/serialize round trip at the character level: a collection
of valid boxes with six-decimal-roundable sizes re-parses to the same list of
boxes up to fresh ids and six-decimal rounding of every coordinate. -/
theorem parseChars_serializeChars (bs : List Box)
    (h1 : ∀ b ∈ bs, validBox b)
    (h2 : ∀ b ∈ bs, 0 < round6 b.width ∧ 0 < round6 b.height) :
    parseChars (serializeChars bs) = bs.enum.map fun p => roundBox p.1 p.2 := by
  have hlive : ∀ b ∈ bs, b.deleted = false := fun b hb => (h1 b hb).2.2.2.2.2.2.2.2.2
  rw [serializeChars_of_live bs hlive]
  cases bs with
  | nil => rfl
  | cons b t =>
    have hbs : ∀ x ∈ b :: t, 0 ≤ x.classId ∧ 0 ≤ x.xCenter ∧ 0 ≤ x.yCenter ∧
        0 ≤ x.width ∧ 0 ≤ x.height := by
      intro x hx
      obtain ⟨hc, hx0, _, hy0, _, hw0, _, hh0, _, _⟩ := h1 x hx
      exact ⟨hc, hx0, hy0, le_of_lt hw0, le_of_lt hh0⟩
    have hlines_ne : ∀ m ∈ (b :: t).map serializeBox, m ≠ [] := by
      intro m hm
      obtain ⟨x, hx, rfl⟩ := List.mem_map.mp hm
      exact serializeBox_ne_nil x (hbs x hx).1
    have hlines_nl : ∀ m ∈ (b :: t).map serializeBox, '\n' ∉ m := by
      intro m hm
      obtain ⟨x, hx, rfl⟩ := List.mem_map.mp hm
      obtain ⟨hc, hx0, hy0, hw0, hh0⟩ := hbs x hx
      exact serializeBox_no_nl x hc hx0 hy0 hw0 hh0
    have hJne : joinNl ((b :: t).map serializeBox) ≠ [] :=
      joinNl_ne_nil _ (by simp) hlines_ne
    have htrim : jsTrim (joinNl ((b :: t).map serializeBox)) =
        joinNl ((b :: t).map serializeBox) := by
      apply jsTrim_eq_self
      · intro c hcc
        rw [List.map_cons, joinNl_head? _ _ (serializeBox_ne_nil b (hbs b (by simp)).1)]
          at hcc
        exact not_isWs_of_isDigitC (serializeBox_head_digit b (hbs b (by simp)).1 c hcc)
      · intro c hcc
        obtain ⟨last, hl1, hl2⟩ := joinNl_getLast? _ (by simp) hlines_ne
        rw [hl2] at hcc
        have hmem : last ∈ (b :: t).map serializeBox :=
          List.mem_of_mem_getLast? (Option.mem_def.mpr hl1)
        obtain ⟨x, hx, rfl⟩ := List.mem_map.mp hmem
        exact not_isWs_of_isDigitC
          (serializeBox_getLast_digit x (hbs x hx).2.2.2.2 c hcc)
    rw [parseChars, htrim, if_neg hJne]
    rw [splitOnNl_joinNl _ (by simp) hlines_nl]
    exact filterMap_parseLine_enumFrom (b :: t) 0 h1 h2

end LabelParser

/-! ## Claim C2: parse/serialize round trip -/

/-- **C2, counterexample.** The claim as stated fails on the code: `cexBox`
satisfies every documented range (`0 < width ≤ 1` with width `10⁻⁷`), yet
`toFixed(6)` renders its width as `0.000000`, so the serialized line fails the
`0 < width` validation on re-parse and the collection comes back empty
instead of with the same count. -/
theorem C2_round_trip_counterexample :
    LabelParser.validBox cexBox ∧
      (LabelParser.parse (LabelParser.serialize [cexBox])).length = 0 := by
  constructor
  · simp only [LabelParser.validBox]
    with_unfolding_all decide
  · with_unfolding_all rfl

/-- **C2 (amended).** For every collection of boxes within the valid ranges,
none deleted, and whose width and height each round to a positive value at six
decimals, `parse(serialize(boxes))` yields the same count, the same classIds
in order, and each coordinate equal to the original rounded to six decimals
(hence within `5·10⁻⁷` of it); ids may differ (they are freshly minted). -/
theorem C2_round_trip (bs : List Box)
    (h1 : ∀ b ∈ bs, LabelParser.validBox b)
    (h2 : ∀ b ∈ bs, 0 < LabelParser.round6 b.width ∧ 0 < LabelParser.round6 b.height) :
    (LabelParser.parse (LabelParser.serialize bs)).length = bs.length ∧
    (LabelParser.parse (LabelParser.serialize bs)).map Box.classId = bs.map Box.classId ∧
    (LabelParser.parse (LabelParser.serialize bs)).map Box.xCenter =
      bs.map (fun b => LabelParser.round6Val b.xCenter) ∧
    (LabelParser.parse (LabelParser.serialize bs)).map Box.yCenter =
      bs.map (fun b => LabelParser.round6Val b.yCenter) ∧
    (LabelParser.parse (LabelParser.serialize bs)).map Box.width =
      bs.map (fun b => LabelParser.round6Val b.width) ∧
    (LabelParser.parse (LabelParser.serialize bs)).map Box.height =
      bs.map (fun b => LabelParser.round6Val b.height) ∧
    (∀ q : ℚ, |LabelParser.round6Val q - q| ≤ 1 / 2000000) := by
  have hch : LabelParser.parse (LabelParser.serialize bs) =
      LabelParser.parseChars (LabelParser.serializeChars bs) := rfl
  rw [hch, LabelParser.parseChars_serializeChars bs h1 h2]
  refine ⟨by simp, ?_, ?_, ?_, ?_, ?_, fun q => LabelParser.round6Val_close q⟩
  · have e1 : (Box.classId ∘ fun p : Nat × Box => LabelParser.roundBox p.1 p.2) =
        Box.classId ∘ Prod.snd := by funext p; rfl
    rw [List.map_map, e1, ← List.map_map, List.enum_map_snd]
  · have e1 : (Box.xCenter ∘ fun p : Nat × Box => LabelParser.roundBox p.1 p.2) =
        (fun b : Box => LabelParser.round6Val b.xCenter) ∘ Prod.snd := by funext p; rfl
    rw [List.map_map, e1, ← List.map_map, List.enum_map_snd]
  · have e1 : (Box.yCenter ∘ fun p : Nat × Box => LabelParser.roundBox p.1 p.2) =
        (fun b : Box => LabelParser.round6Val b.yCenter) ∘ Prod.snd := by funext p; rfl
    rw [List.map_map, e1, ← List.map_map, List.enum_map_snd]
  · have e1 : (Box.width ∘ fun p : Nat × Box => LabelParser.roundBox p.1 p.2) =
        (fun b : Box => LabelParser.round6Val b.width) ∘ Prod.snd := by funext p; rfl
    rw [List.map_map, e1, ← List.map_map, List.enum_map_snd]
  · have e1 : (Box.height ∘ fun p : Nat × Box => LabelParser.roundBox p.1 p.2) =
        (fun b : Box => LabelParser.round6Val b.height) ∘ Prod.snd := by funext p; rfl
    rw [List.map_map, e1, ← List.map_map, List.enum_map_snd]

/-- **C2, witness.** The amended round trip applied to the documented two-box
collection: both hypotheses hold there and the theorem yields count and
classId preservation together with the rounding bound at the sample width. -/
theorem C2_round_trip_witness :
    (LabelParser.parse (LabelParser.serialize rtBoxes)).length = rtBoxes.length ∧
      (LabelParser.parse (LabelParser.serialize rtBoxes)).map Box.classId =
        rtBoxes.map Box.classId ∧
      |LabelParser.round6Val (1/5) - 1/5| ≤ 1 / 2000000 := by
  have h := C2_round_trip rtBoxes
    (by
      intro b hb
      simp only [rtBoxes, List.mem_cons, List.not_mem_nil, or_false] at hb
      rcases hb with rfl | rfl <;>
        (simp only [LabelParser.validBox]; with_unfolding_all decide))
    (by
      intro b hb
      simp only [rtBoxes, List.mem_cons, List.not_mem_nil, or_false] at hb
      rcases hb with rfl | rfl <;> with_unfolding_all decide)
  exact ⟨h.1, h.2.1, h.2.2.2.2.2.2 (1/5)⟩

/-! ## Claim C4: line acceptance and silent skipping -/

/-- **C4.** A line is accepted as a box exactly when the trimmed line is
non-empty, not a `#` comment, has at least five whitespace tokens whose first
five parse (JS `parseInt`/`parseFloat`) as `classId ≥ 0`, `0 ≤ xCenter ≤ 1`,
`0 ≤ yCenter ≤ 1`, `0 < width ≤ 1`, `0 < height ≤ 1`; every other line is
skipped with no error (`parse` is total and equals the filterMap of the
per-line parser over all lines); the documented out-of-range line parses to
an empty collection. -/
theorem C4_line_acceptance :
    (∀ i raw, (LabelParser.parseLine i raw).isSome = LabelParser.claimAccepts (jsTrim raw)) ∧
    (∀ content : List Char, LabelParser.parseChars content =
      ((splitOnNl (jsTrim content)).enum).filterMap fun p => LabelParser.parseLine p.1 p.2) ∧
    LabelParser.parse cexLine = [] := by
  refine ⟨?_, ?_, by with_unfolding_all rfl⟩
  · intro i raw
    simp only [LabelParser.parseLine]
    by_cases h0 : jsTrim raw = []
    · simp [LabelParser.claimAccepts, h0]
    by_cases h1 : (jsTrim raw).head? = some '#'
    · simp [LabelParser.claimAccepts, h0, h1]
    rw [if_neg h0, if_neg h1]
    rcases htk : tokens (jsTrim raw) with _ | ⟨p0, _ | ⟨p1, _ | ⟨p2, _ | ⟨p3, _ | ⟨p4, rest⟩⟩⟩⟩⟩
    · simp [LabelParser.claimAccepts, h0, h1, htk]
    · simp [LabelParser.claimAccepts, h0, h1, htk]
    · simp [LabelParser.claimAccepts, h0, h1, htk]
    · simp [LabelParser.claimAccepts, h0, h1, htk]
    · simp [LabelParser.claimAccepts, h0, h1, htk]
    · rcases hp0 : jsParseInt p0 with _ | cid
      · simp [LabelParser.claimAccepts, h0, h1, htk, hp0]
      rcases hp1 : jsParseFloat p1 with _ | x
      · simp [LabelParser.claimAccepts, h0, h1, htk, hp0, hp1]
      rcases hp2 : jsParseFloat p2 with _ | y
      · simp [LabelParser.claimAccepts, h0, h1, htk, hp0, hp1, hp2]
      rcases hp3 : jsParseFloat p3 with _ | w
      · simp [LabelParser.claimAccepts, h0, h1, htk, hp0, hp1, hp2, hp3]
      rcases hp4 : jsParseFloat p4 with _ | h
      · simp [LabelParser.claimAccepts, h0, h1, htk, hp0, hp1, hp2, hp3, hp4]
      simp only [LabelParser.claimAccepts, htk, hp0, hp1, hp2, hp3, hp4]
      by_cases hC : (0 ≤ cid ∧ 0 ≤ x ∧ x ≤ 1 ∧ 0 ≤ y ∧ y ≤ 1 ∧
          0 < w ∧ w ≤ 1 ∧ 0 < h ∧ h ≤ 1)
      · rw [if_pos hC]
        simp only [Option.isSome_some]
        symm
        simp only [List.take_succ_cons, List.take_zero, List.length_cons,
          hp0, hp1, hp2, hp3, hp4, Bool.and_eq_true, decide_eq_true_eq]
        refine ⟨⟨⟨h0, ?_⟩, by omega⟩, ?_⟩
        · intro hcon
          exact h1 hcon
        · tauto
      · rw [if_neg hC]
        simp only [Option.isSome_none]
        symm
        rw [Bool.eq_false_iff]
        intro htrue
        simp only [List.take_succ_cons, List.take_zero, hp0, hp1, hp2, hp3, hp4,
          Bool.and_eq_true, decide_eq_true_eq] at htrue
        exact hC (by tauto)
  · intro content
    by_cases h : jsTrim content = []
    · rw [LabelParser.parseChars, if_pos h, h]
      rfl
    · rw [LabelParser.parseChars, if_neg h]

/-! ## Claim C7: the view transform round trip -/

/-- **C7.** For positive image dimensions and viewport size and any zoom in
`[0.05, 20]`, mapping a screen point into image space and back returns the
same point: the forward map is `offset + p·scale`, the inverse
`(p − offset)/scale`, with `scale = min(viewportW/imageW, viewportH/imageH)·zoom`
and centering offsets — exactly the source's `getViewTransform`,
`canvasPxToImagePx` and `imagePxToCanvasPx`. -/
theorem C7_view_transform_inverse (hasBitmap : Bool) (imgW imgH cw ch zoom : ℚ)
    (p : ℚ × ℚ) (hiw : 0 < imgW) (hih : 0 < imgH) (hcw : 0 < cw) (hch : 0 < ch)
    (hz1 : 1/20 ≤ zoom) (_hz2 : zoom ≤ 20) :
    imagePxToCanvasPx hasBitmap imgW imgH cw ch zoom
      (canvasPxToImagePx hasBitmap imgW imgH cw ch zoom p) = p := by
  have hfit : 0 < getFitScale hasBitmap imgW imgH cw ch := by
    rw [getFitScale]
    split
    · norm_num
    · exact lt_min (div_pos hcw hiw) (div_pos hch hih)
  have hz0 : (0 : ℚ) < zoom := lt_of_lt_of_le (by norm_num) hz1
  have hs : getFitScale hasBitmap imgW imgH cw ch * zoom ≠ 0 :=
    ne_of_gt (mul_pos hfit hz0)
  simp only [imagePxToCanvasPx, canvasPxToImagePx, getViewTransform]
  rw [Prod.ext_iff]
  constructor
  · show _ + _ / (getFitScale hasBitmap imgW imgH cw ch * zoom) *
      (getFitScale hasBitmap imgW imgH cw ch * zoom) = p.1
    rw [div_mul_cancel₀ _ hs]
    ring
  · show _ + _ / (getFitScale hasBitmap imgW imgH cw ch * zoom) *
      (getFitScale hasBitmap imgW imgH cw ch * zoom) = p.2
    rw [div_mul_cancel₀ _ hs]
    ring

/-- **C7, witness.** The round trip at a concrete configuration. -/
theorem C7_view_transform_inverse_witness :
    imagePxToCanvasPx true 100 50 800 600 1
      (canvasPxToImagePx true 100 50 800 600 1 (3, 4)) = (3, 4) :=
  C7_view_transform_inverse true 100 50 800 600 1 (3, 4)
    (by with_unfolding_all decide) (by with_unfolding_all decide)
    (by with_unfolding_all decide) (by with_unfolding_all decide)
    (by with_unfolding_all decide) (by with_unfolding_all decide)

/-! ## Supporting lemmas: StateManager primitives -/

theorem find?_map_replace (k : Int) (v : ImageState) :
    ∀ m : List (Int × ImageState),
      ((m.map fun q => if q.1 == k then (k, v) else q).find? fun q => q.1 == k) =
        if (m.find? fun q => q.1 == k).isSome then some (k, v) else none := by
  intro m
  induction m with
  | nil => simp
  | cons q rest ih =>
    by_cases hq : (q.1 == k) = true
    · rw [List.map_cons, if_pos hq]
      simp [List.find?_cons, hq]
    · have e1 : ∀ l : List (Int × ImageState),
          List.find? (fun r => r.1 == k) (q :: l) = List.find? (fun r => r.1 == k) l := by
        intro l
        apply List.find?_cons_of_neg
        simpa using hq
      rw [List.map_cons, if_neg hq, e1, e1]
      exact ih

theorem jsMapGet_jsMapSet_self (m : List (Int × ImageState)) (k : Int) (v : ImageState) :
    jsMapGet (jsMapSet m k v) k = some v := by
  by_cases h : (m.find? fun p => p.1 == k).isSome
  · rw [jsMapSet, if_pos h, jsMapGet, find?_map_replace, if_pos h]
    rfl
  · rw [jsMapSet, if_neg h]
    rw [Option.not_isSome_iff_eq_none] at h
    rw [jsMapGet, List.find?_append, h]
    simp

theorem updateModifiedState_imageStates (s : StateManager) :
    (StateManager.updateModifiedState s).imageStates = s.imageStates := by
  rw [StateManager.updateModifiedState]
  split
  · rfl
  · split <;> rfl

theorem updateModifiedState_currentIndex (s : StateManager) :
    (StateManager.updateModifiedState s).currentIndex = s.currentIndex := by
  rw [StateManager.updateModifiedState]
  split
  · rfl
  · split <;> rfl

namespace StateManager

theorem setFirstById_eq_map (boxes : List Box) (bid : Nat) (f : Box → Box)
    (hnd : (boxes.map Box.id).Nodup) :
    setFirstById boxes bid f = boxes.map fun b => if b.id = bid then f b else b := by
  induction boxes with
  | nil => rfl
  | cons b rest ih =>
    rw [List.map_cons, List.nodup_cons] at hnd
    by_cases hb : b.id = bid
    · have hmap : List.map (fun x => if x.id = bid then f x else x) rest = rest := by
        conv_rhs => rw [← List.map_id rest]
        apply List.map_congr_left
        intro x hx
        have hne : ¬(x.id = bid) := by
          intro hcon
          have hm1 : x.id ∈ List.map Box.id rest := List.mem_map_of_mem Box.id hx
          rw [hcon, ← hb] at hm1
          exact hnd.1 hm1
        simp [hne]
      simp only [setFirstById, List.map_cons, hb, eq_self_iff_true, if_true, hmap]
    · simp only [setFirstById, List.map_cons, if_neg hb, ih hnd.2]

theorem replayBoxes_eq_map (saved : List Box) (f : Box → Box) :
    ∀ boxes : List Box, (boxes.map Box.id).Nodup → (∀ b, (f b).id = b.id) →
      (∀ b, f (f b) = f b) →
      replayBoxes saved f boxes =
        boxes.map fun b => if b.id ∈ saved.map Box.id then f b else b := by
  induction saved with
  | nil =>
    intro boxes _ _ _
    rw [replayBoxes, List.foldl_nil]
    have : ∀ x ∈ boxes, x = (if x.id ∈ ([] : List Box).map Box.id then f x else x) := by
      intro x _
      simp
    conv_lhs => rw [← List.map_id boxes]
    exact List.map_congr_left fun x hx => by simp
  | cons sb saved' ih =>
    intro boxes hnd hfid hff
    rw [replayBoxes, List.foldl_cons]
    have h1 : setFirstById boxes sb.id f = boxes.map fun b => if b.id = sb.id then f b else b :=
      setFirstById_eq_map boxes sb.id f hnd
    rw [show (List.foldl (fun bs sb => setFirstById bs sb.id f) (setFirstById boxes sb.id f)
        saved') = replayBoxes saved' f (setFirstById boxes sb.id f) from rfl]
    rw [h1]
    have hnd2 : ((boxes.map fun b => if b.id = sb.id then f b else b).map Box.id).Nodup := by
      rw [List.map_map]
      have : (Box.id ∘ fun b => if b.id = sb.id then f b else b) = Box.id := by
        funext b
        by_cases hb : b.id = sb.id <;> simp [Function.comp, hb, hfid]
      rw [this]
      exact hnd
    rw [ih _ hnd2 hfid hff, List.map_map]
    apply List.map_congr_left
    intro b _
    by_cases hb : b.id = sb.id
    · by_cases hmem : b.id ∈ saved'.map Box.id
      · simp [Function.comp, hb, hfid, hmem, hff, List.mem_cons]
      · simp [Function.comp, hb, hfid, hmem, hff, List.mem_cons]
    · by_cases hmem : b.id ∈ saved'.map Box.id
      · simp [Function.comp, hb, hmem, List.mem_cons]
      · simp [Function.comp, hb, hmem, List.mem_cons]

theorem unmarkBox_id (b : Box) : (unmarkBox b).id = b.id := rfl

theorem remarkBox_id (b : Box) : (remarkBox b).id = b.id := rfl

theorem unmarkBox_idem (b : Box) : unmarkBox (unmarkBox b) = unmarkBox b := rfl

theorem remarkBox_idem (b : Box) : remarkBox (remarkBox b) = remarkBox b := rfl

theorem replay_two_eq (action : EditAction) (f g : Box → Box) (boxes : List Box)
    (hnd : (boxes.map Box.id).Nodup)
    (hfid : ∀ b, (f b).id = b.id) (hff : ∀ b, f (f b) = f b)
    (hgid : ∀ b, (g b).id = b.id) (hgg : ∀ b, g (g b) = g b) :
    (if action.type = actDelete then replayBoxes action.boxes f boxes
     else if action.type = actRestore then replayBoxes action.boxes g boxes
     else boxes) =
    boxes.map (fun b =>
      if action.type = actDelete ∧ b.id ∈ action.boxes.map Box.id then f b
      else if action.type = actRestore ∧ b.id ∈ action.boxes.map Box.id then g b
      else b) := by
  by_cases hd : action.type = actDelete
  · rw [if_pos hd, replayBoxes_eq_map _ _ _ hnd hfid hff]
    apply List.map_congr_left
    intro b _
    by_cases hmem : b.id ∈ action.boxes.map Box.id <;> simp [hd, hmem]
  · by_cases hr : action.type = actRestore
    · have hne : ¬(actRestore = actDelete) := by decide
      rw [if_neg hd, if_pos hr, replayBoxes_eq_map _ _ _ hnd hgid hgg]
      apply List.map_congr_left
      intro b _
      by_cases hmem : b.id ∈ action.boxes.map Box.id <;> simp [hd, hr, hmem, hne]
    · rw [if_neg hd, if_neg hr]
      have : ∀ x ∈ boxes,
          x = (if action.type = actDelete ∧ x.id ∈ action.boxes.map Box.id then f x
            else if action.type = actRestore ∧ x.id ∈ action.boxes.map Box.id then g x
            else x) := by
        intro x _
        simp [hd, hr]
      conv_lhs => rw [← List.map_id boxes]
      exact List.map_congr_left fun x hx => by simp [hd, hr]

end StateManager

/-! ## Claim C8: undo/redo on an empty stack -/

/-- **C8.** With no image state for the current index, or with an empty
undo (resp. redo) stack, `undo()` (resp. `redo()`) returns `false` and the
session state is completely unchanged; no error is raised (both operations
are total). -/
theorem C8_empty_stack_noop (s : StateManager) :
    (jsMapGet s.imageStates s.currentIndex = none →
      StateManager.undo s = (s, false) ∧ StateManager.redo s = (s, false)) ∧
    (∀ st, jsMapGet s.imageStates s.currentIndex = some st →
      (st.undoStack = [] → StateManager.undo s = (s, false)) ∧
      (st.redoStack = [] → StateManager.redo s = (s, false))) := by
  constructor
  · intro h
    constructor
    · simp [StateManager.undo, h]
    · simp [StateManager.redo, h]
  · intro st hst
    constructor
    · intro hu
      simp [StateManager.undo, hst, hu]
    · intro hr
      simp [StateManager.redo, hst, hr]

/-- **C8, witness.** Both operations refuse and change nothing on a fresh
session whose current image has empty stacks. -/
theorem C8_empty_stack_noop_witness :
    StateManager.undo StateManager.demoState = (StateManager.demoState, false) ∧
      StateManager.redo StateManager.demoState = (StateManager.demoState, false) := by
  have h := (C8_empty_stack_noop StateManager.demoState).2
    { boxes := [StateManager.demoBox], originalBoxes := [StateManager.demoBox],
      undoStack := [], redoStack := [] } (by with_unfolding_all rfl)
  exact ⟨h.1 rfl, h.2 rfl⟩

/-! ## Claim C10: undo/redo replay is total over arbitrary actions -/

theorem jsMapGet_after_update (s : StateManager) (st' : ImageState) :
    jsMapGet (StateManager.updateModifiedState
        ({ s with imageStates := jsMapSet s.imageStates s.currentIndex st' })).imageStates
      s.currentIndex = some st' := by
  rw [updateModifiedState_imageStates]
  exact jsMapGet_jsMapSet_self _ _ _

/-- **C10.** Replaying any stacked action succeeds: `undo`/`redo` return
`true` whatever the action holds; recorded boxes whose id has no match in
the working collection are silently skipped, and (under the data-model
invariant that working ids are unique) every matched box gets its `deleted`
flag set per the action type with `selected` cleared, while all other boxes
are untouched. -/
theorem C10_replay_total (s : StateManager) :
    (∀ st action, jsMapGet s.imageStates s.currentIndex = some st →
      st.undoStack.getLast? = some action →
      (StateManager.undo s).2 = true ∧
      ((st.boxes.map Box.id).Nodup →
        jsMapGet (StateManager.undo s).1.imageStates s.currentIndex =
          some { st with
            boxes := st.boxes.map fun b =>
              if action.type = actDelete ∧ b.id ∈ action.boxes.map Box.id then
                StateManager.unmarkBox b
              else if action.type = actRestore ∧ b.id ∈ action.boxes.map Box.id then
                StateManager.remarkBox b
              else b
            undoStack := st.undoStack.dropLast
            redoStack := st.redoStack ++ [action] })) ∧
    (∀ st action, jsMapGet s.imageStates s.currentIndex = some st →
      st.redoStack.getLast? = some action →
      (StateManager.redo s).2 = true ∧
      ((st.boxes.map Box.id).Nodup →
        jsMapGet (StateManager.redo s).1.imageStates s.currentIndex =
          some { st with
            boxes := st.boxes.map fun b =>
              if action.type = actDelete ∧ b.id ∈ action.boxes.map Box.id then
                StateManager.remarkBox b
              else if action.type = actRestore ∧ b.id ∈ action.boxes.map Box.id then
                StateManager.unmarkBox b
              else b
            undoStack := st.undoStack ++ [action]
            redoStack := st.redoStack.dropLast })) := by
  constructor
  · intro st action hget hlast
    refine ⟨by simp [StateManager.undo, hget, hlast], ?_⟩
    intro hnd
    have hchar := StateManager.replay_two_eq action StateManager.unmarkBox
      StateManager.remarkBox st.boxes hnd StateManager.unmarkBox_id
      StateManager.unmarkBox_idem StateManager.remarkBox_id StateManager.remarkBox_idem
    simp only [StateManager.undo, hget, hlast]
    rw [jsMapGet_after_update, hchar]
  · intro st action hget hlast
    refine ⟨by simp [StateManager.redo, hget, hlast], ?_⟩
    intro hnd
    have hchar := StateManager.replay_two_eq action StateManager.remarkBox
      StateManager.unmarkBox st.boxes hnd StateManager.remarkBox_id
      StateManager.remarkBox_idem StateManager.unmarkBox_id StateManager.unmarkBox_idem
    simp only [StateManager.redo, hget, hlast]
    rw [jsMapGet_after_update, hchar]

/-- **C10, witness.** Undoing a concrete stacked delete action returns
`true` and restores the matched box with selection cleared. -/
theorem C10_replay_total_witness :
    (StateManager.undo StateManager.undoReadyState).2 = true ∧
      jsMapGet (StateManager.undo StateManager.undoReadyState).1.imageStates
        StateManager.undoReadyState.currentIndex =
        some { StateManager.undoReadyImage with
          boxes := [StateManager.demoBox]
          undoStack := []
          redoStack := [StateManager.delAction] } := by
  have h := (C10_replay_total StateManager.undoReadyState).1 StateManager.undoReadyImage
    StateManager.delAction (by with_unfolding_all rfl) (by with_unfolding_all rfl)
  refine ⟨h.1, ?_⟩
  have h2 := h.2 (by with_unfolding_all decide)
  rw [h2]
  with_unfolding_all rfl

/-! ## Supporting lemmas: modification tracking -/

theorem cloneBoxes_id (bs : List Box) : LabelParser.cloneBoxes bs = bs := by
  induction bs with
  | nil => rfl
  | cons b t ih =>
    rw [show LabelParser.cloneBoxes (b :: t) =
      LabelParser.cloneBox b :: LabelParser.cloneBoxes t from rfl, ih]
    rfl

theorem map_cloneBox (bs : List Box) : bs.map LabelParser.cloneBox = bs :=
  cloneBoxes_id bs

theorem mem_setAdd_self (l : List Int) (k : Int) : k ∈ setAdd l k := by
  by_cases h : k ∈ l <;> simp [setAdd, h]

theorem not_mem_setDel_self (l : List Int) (k : Int) : k ∉ setDel l k := by
  intro h
  rw [setDel, List.mem_filter] at h
  simp at h

namespace StateManager

theorem find?_of_nodup (B : List Box) (b : Box) (hb : b ∈ B)
    (hnd : (B.map Box.id).Nodup) :
    B.find? (fun o => o.id == b.id) = some b := by
  induction B with
  | nil => exact absurd hb (List.not_mem_nil b)
  | cons c rest ih =>
    rw [List.map_cons, List.nodup_cons] at hnd
    rcases List.mem_cons.mp hb with rfl | hbr
    · exact List.find?_cons_of_pos _ (by simp)
    · have hne : ¬((fun o => o.id == b.id) c = true) := by
        simp only [beq_iff_eq]
        intro hcon
        exact hnd.1 (hcon ▸ List.mem_map_of_mem Box.id hbr)
      rw [show List.find? (fun o => o.id == b.id) (c :: rest) =
        List.find? (fun o => o.id == b.id) rest from List.find?_cons_of_neg _ hne]
      exact ih hbr hnd.2

theorem mem_filter_ids (B : List Box) (p : Box → Bool) (b : Box) (hb : b ∈ B)
    (hnd : (B.map Box.id).Nodup) (hmem : b.id ∈ (B.filter p).map Box.id) :
    p b = true := by
  obtain ⟨b', hb', hid⟩ := List.mem_map.mp hmem
  rw [List.mem_filter] at hb'
  have : b' = b := List.inj_on_of_nodup_map hnd hb'.1 hb hid
  exact this ▸ hb'.2

theorem ids_mem_filter (B : List Box) (p : Box → Bool) (b : Box) (hb : b ∈ B)
    (hp : p b = true) : b.id ∈ (B.filter p).map Box.id :=
  List.mem_map_of_mem Box.id (List.mem_filter.mpr ⟨hb, hp⟩)

theorem mem_globalModified_updateModified (s : StateManager) (st : ImageState)
    (hget : jsMapGet s.imageStates s.currentIndex = some st) :
    (s.currentIndex ∈ (updateModifiedState s).globalModified ↔
      hasDiff st.boxes st.originalBoxes = true) := by
  simp only [updateModifiedState, hget]
  cases hd : hasDiff st.boxes st.originalBoxes with
  | true =>
    rw [if_pos rfl]
    exact ⟨fun _ => rfl, fun _ => mem_setAdd_self _ _⟩
  | false =>
    rw [if_neg (by simp)]
    constructor
    · intro hmem
      exact absurd hmem (not_mem_setDel_self _ _)
    · intro htrue
      exact absurd htrue (by simp)

theorem hasDiff_iff (bs os : List Box) :
    hasDiff bs os = true ↔
      ∃ b ∈ bs, os.find? (fun o => o.id == b.id) = none ∨
        ∃ o, os.find? (fun o => o.id == b.id) = some o ∧ b.deleted ≠ o.deleted := by
  rw [hasDiff, List.any_eq_true]
  constructor
  · rintro ⟨b, hb, hpred⟩
    refine ⟨b, hb, ?_⟩
    cases hf : os.find? fun o => o.id == b.id with
    | none => exact Or.inl rfl
    | some o =>
      rw [hf] at hpred
      exact Or.inr ⟨o, rfl, by simpa using hpred⟩
  · rintro ⟨b, hb, hcase⟩
    refine ⟨b, hb, ?_⟩
    rcases hcase with hf | ⟨o, hf, hne⟩
    · rw [hf]
    · rw [hf]
      simpa using hne

end StateManager

namespace StateManager

theorem jsMapGet_single (k : Int) (v : ImageState) : jsMapGet [(k, v)] k = some v := by
  simp [jsMapGet, List.find?_cons]

theorem jsMapSet_single (k : Int) (v v' : ImageState) :
    jsMapSet [(k, v)] k v' = [(k, v')] := by
  simp [jsMapSet, List.find?_cons]

theorem hasDiff_scenario (B : List Box) (hnd : (B.map Box.id).Nodup) :
    hasDiff
      (replayBoxes (B.filter fun b => b.selected && !b.deleted) unmarkBox
        (B.map fun b =>
          if b.selected && !b.deleted then { b with deleted := true, selected := false }
          else b)) B = false := by
  have hmid : ∀ b : Box,
      ((fun b => if b.selected && !b.deleted then
          { b with deleted := true, selected := false } else b) b).id = b.id := by
    intro b
    by_cases h : (b.selected && !b.deleted) = true <;> simp [h]
  have hnd2 : ((B.map fun b => if b.selected && !b.deleted then
      { b with deleted := true, selected := false } else b).map Box.id).Nodup := by
    rw [List.map_map]
    have he : (Box.id ∘ fun b : Box => if b.selected && !b.deleted then
        { b with deleted := true, selected := false } else b) = Box.id := by
      funext b
      exact hmid b
    rw [he]
    exact hnd
  rw [replayBoxes_eq_map _ _ _ hnd2 unmarkBox_id unmarkBox_idem, List.map_map]
  rw [hasDiff, List.any_eq_false]
  intro x hx
  obtain ⟨b, hbB, rfl⟩ := List.mem_map.mp hx
  simp only [Function.comp]
  by_cases hsel : (b.selected && !b.deleted) = true
  · have hbid : b.id ∈ ((B.filter fun b => b.selected && !b.deleted).map Box.id) :=
      ids_mem_filter B _ b hbB hsel
    simp only [if_pos hsel, hmid]
    have hid2 : ({ b with deleted := true, selected := false } : Box).id = b.id := rfl
    rw [hid2, if_pos hbid]
    have hfind := find?_of_nodup B b hbB hnd
    have hidu : (unmarkBox { b with deleted := true, selected := false }).id = b.id := rfl
    rw [hidu, hfind]
    have hdel : b.deleted = false := by
      rw [Bool.and_eq_true] at hsel
      simpa using hsel.2
    simp [unmarkBox, hdel]
  · simp only [if_neg hsel]
    have hnotmem : b.id ∉ ((B.filter fun b => b.selected && !b.deleted).map Box.id) := by
      intro hmem
      exact hsel (mem_filter_ids B _ b hbB hnd hmem)
    rw [if_neg hnotmem]
    rw [find?_of_nodup B b hbB hnd]
    simp

end StateManager

/-! ## Claim C1: the modification rule after undo/redo -/

/-- **C1.** After a successful `undo()` or `redo()`, the current image is in
the modified set iff some working box has no same-id original or disagrees
with it on `deleted`; and in the documented scenario, a fresh image is not
modified, it is modified after `deleteSelected`, and not modified after the
undo that exactly reverses the delete. -/
theorem C1_modified_rule (s : StateManager) :
    ((StateManager.undo s).2 = true →
      ∀ st', jsMapGet (StateManager.undo s).1.imageStates s.currentIndex = some st' →
        (s.currentIndex ∈ (StateManager.undo s).1.globalModified ↔
          ∃ b ∈ st'.boxes,
            st'.originalBoxes.find? (fun o => o.id == b.id) = none ∨
              ∃ o, st'.originalBoxes.find? (fun o => o.id == b.id) = some o ∧
                b.deleted ≠ o.deleted)) ∧
    ((StateManager.redo s).2 = true →
      ∀ st', jsMapGet (StateManager.redo s).1.imageStates s.currentIndex = some st' →
        (s.currentIndex ∈ (StateManager.redo s).1.globalModified ↔
          ∃ b ∈ st'.boxes,
            st'.originalBoxes.find? (fun o => o.id == b.id) = none ∨
              ∃ o, st'.originalBoxes.find? (fun o => o.id == b.id) = some o ∧
                b.deleted ≠ o.deleted)) ∧
    (∀ (idx : Int) (B : List Box) (now : Nat), (B.map Box.id).Nodup →
      (∃ b ∈ B, b.selected = true ∧ b.deleted = false) →
      idx ∉ (StateManager.initImageState StateManager.init idx B).globalModified ∧
      idx ∈ ((StateManager.deleteSelected
        (StateManager.initImageState StateManager.init idx B) now).1).globalModified ∧
      idx ∉ ((StateManager.undo (StateManager.deleteSelected
        (StateManager.initImageState StateManager.init idx B) now).1).1).globalModified) := by
  refine ⟨?_, ?_, ?_⟩
  · intro hsucc st' hget'
    cases hget : jsMapGet s.imageStates s.currentIndex with
    | none => simp [StateManager.undo, hget] at hsucc
    | some st =>
      cases hlast : st.undoStack.getLast? with
      | none => simp [StateManager.undo, hget, hlast] at hsucc
      | some action =>
        simp only [StateManager.undo, hget, hlast] at hget' ⊢
        rw [jsMapGet_after_update] at hget'
        obtain rfl := Option.some_inj.mp hget'
        exact Iff.trans
          (StateManager.mem_globalModified_updateModified _ _
            (jsMapGet_jsMapSet_self _ _ _))
          (StateManager.hasDiff_iff _ _)
  · intro hsucc st' hget'
    cases hget : jsMapGet s.imageStates s.currentIndex with
    | none => simp [StateManager.redo, hget] at hsucc
    | some st =>
      cases hlast : st.redoStack.getLast? with
      | none => simp [StateManager.redo, hget, hlast] at hsucc
      | some action =>
        simp only [StateManager.redo, hget, hlast] at hget' ⊢
        rw [jsMapGet_after_update] at hget'
        obtain rfl := Option.some_inj.mp hget'
        exact Iff.trans
          (StateManager.mem_globalModified_updateModified _ _
            (jsMapGet_jsMapSet_self _ _ _))
          (StateManager.hasDiff_iff _ _)
  · intro idx B now hnd hex
    obtain ⟨b0, hb0, hsel0, hdel0⟩ := hex
    have hs1 : StateManager.initImageState StateManager.init idx B =
        ⟨idx, [(idx, ⟨B, B, [], []⟩)], []⟩ := by
      simp [StateManager.initImageState, StateManager.init, jsMapGet, jsMapSet,
        cloneBoxes_id]
    have hlen : ¬((B.filter fun b => b.selected && !b.deleted).length = 0) := by
      have hmem : b0 ∈ B.filter fun b => b.selected && !b.deleted :=
        List.mem_filter.mpr ⟨hb0, by simp [hsel0, hdel0]⟩
      have := List.length_pos.mpr (List.ne_nil_of_mem hmem)
      omega
    have hs2 : StateManager.deleteSelected
        (StateManager.initImageState StateManager.init idx B) now =
        (⟨idx,
          [(idx,
            ⟨B.map fun b => if b.selected && !b.deleted then
                { b with deleted := true, selected := false } else b,
              B,
              [⟨actDelete, B.filter fun b => b.selected && !b.deleted, now⟩],
              []⟩)],
          [idx]⟩,
          (B.filter fun b => b.selected && !b.deleted).length) := by
      rw [hs1]
      simp [StateManager.deleteSelected, StateManager.recordAction,
        StateManager.modifyCurrentBoxes, StateManager.markModified,
        StateManager.jsMapGet_single, StateManager.jsMapSet_single, map_cloneBox,
        hlen, setAdd, StateManager.maxStackSize]
    refine ⟨?_, ?_, ?_⟩
    · rw [hs1]
      simp
    · rw [hs2]
      simp
    · rw [hs2]
      simp only [StateManager.undo, StateManager.jsMapGet_single]
      intro hmem
      have h1 := (StateManager.mem_globalModified_updateModified _ _
        (jsMapGet_jsMapSet_self _ _ _)).mp hmem
      have h2 : (false : Bool) = true := by
        rw [← StateManager.hasDiff_scenario B hnd]
        exact h1
      exact absurd h2 (by simp)

/-- **C1, witness.** The scenario instantiated with one selected live box:
not modified after init, modified after the delete, not modified after the
undo. -/
theorem C1_modified_rule_witness :
    (0 : Int) ∉ (StateManager.initImageState StateManager.init 0
      [StateManager.selDemoBox]).globalModified ∧
    (0 : Int) ∈ ((StateManager.deleteSelected (StateManager.initImageState
      StateManager.init 0 [StateManager.selDemoBox]) 0).1).globalModified ∧
    (0 : Int) ∉ ((StateManager.undo (StateManager.deleteSelected
      (StateManager.initImageState StateManager.init 0
        [StateManager.selDemoBox]) 0).1).1).globalModified :=
  (C1_modified_rule StateManager.init).2.2 0 [StateManager.selDemoBox] 0
    (by with_unfolding_all decide)
    ⟨StateManager.selDemoBox, List.mem_cons_self _ _, rfl, rfl⟩

/-! ## Supporting lemmas: the undo-stack bound -/

namespace StateManager

theorem mem_jsMapSet (m : List (Int × ImageState)) (k : Int) (v : ImageState)
    (p : Int × ImageState) (hp : p ∈ jsMapSet m k v) : p ∈ m ∨ p = (k, v) := by
  rw [jsMapSet] at hp
  split at hp
  · obtain ⟨q, hq, he⟩ := List.mem_map.mp hp
    by_cases hqk : (q.1 == k) = true
    · rw [if_pos hqk] at he
      exact Or.inr he.symm
    · rw [if_neg hqk] at he
      exact Or.inl (he ▸ hq)
  · rcases List.mem_append.mp hp with h1 | h1
    · exact Or.inl h1
    · exact Or.inr (List.mem_singleton.mp h1)

theorem StackInv_get (s : StateManager) (hInv : StackInv s) (k : Int) (st : ImageState)
    (hget : jsMapGet s.imageStates k = some st) :
    st.undoStack.length + st.redoStack.length ≤ maxStackSize := by
  rw [jsMapGet] at hget
  obtain ⟨p, hfind, hsnd⟩ := Option.map_eq_some'.mp hget
  exact hsnd ▸ hInv p (List.mem_of_find?_eq_some hfind)

theorem StackInv_jsMapSet (s : StateManager) (k : Int) (v : ImageState)
    (hInv : StackInv s) (hv : v.undoStack.length + v.redoStack.length ≤ maxStackSize) :
    StackInv { s with imageStates := jsMapSet s.imageStates k v } := by
  intro p hp
  rcases mem_jsMapSet s.imageStates k v p hp with h1 | rfl
  · exact hInv p h1
  · exact hv

theorem StackInv_currentIndex (s : StateManager) (i : Int) (hInv : StackInv s) :
    StackInv { s with currentIndex := i } :=
  fun p hp => hInv p hp

theorem StackInv_modifyCurrentBoxes (s : StateManager) (f : List Box → List Box)
    (hInv : StackInv s) : StackInv (modifyCurrentBoxes s f) := by
  rw [modifyCurrentBoxes]
  cases hget : jsMapGet s.imageStates s.currentIndex with
  | none => exact hInv
  | some st =>
    exact StackInv_jsMapSet s s.currentIndex _ hInv (StackInv_get s hInv _ st hget)

theorem StackInv_recordAction (s : StateManager) (type : String) (affected : List Box)
    (now : Nat) (hInv : StackInv s) : StackInv (recordAction s type affected now) := by
  rw [recordAction]
  cases hget : jsMapGet s.imageStates s.currentIndex with
  | none => exact hInv
  | some st =>
    apply StackInv_jsMapSet s s.currentIndex _ hInv
    have hb := StackInv_get s hInv _ st hget
    simp only [List.length_append, List.length_singleton, List.length_nil, List.length_drop]
    split
    · simp only [List.length_drop, List.length_append, List.length_singleton]
      omega
    · simp only [List.length_append, List.length_singleton] at *
      omega

theorem StackInv_markSaved (s : StateManager) (hInv : StackInv s) :
    StackInv (markSaved s) := by
  rw [markSaved]
  cases hget : jsMapGet s.imageStates s.currentIndex with
  | none => exact hInv
  | some st =>
    intro p hp
    rcases mem_jsMapSet _ _ _ p hp with h1 | rfl
    · exact hInv p h1
    · simp [maxStackSize]

theorem StackInv_markModified (s : StateManager) (hInv : StackInv s) :
    StackInv (markModified s) :=
  fun p hp => hInv p hp

theorem StackInv_step (s s' : StateManager) (hInv : StackInv s) (hstep : Step s s') :
    StackInv s' := by
  cases hstep with
  | initImageState index boxes =>
    rw [initImageState]
    by_cases h : (jsMapGet s.imageStates index).isSome
    · rw [if_pos h]
      exact StackInv_currentIndex _ _ hInv
    · rw [if_neg h]
      apply StackInv_currentIndex
      exact StackInv_jsMapSet s index _ hInv (by simp)
  | setCurrentIndex index => exact StackInv_currentIndex _ _ hInv
  | setCurrentBoxes boxes =>
    rw [setCurrentBoxes]
    cases hget : jsMapGet s.imageStates s.currentIndex with
    | none => exact hInv
    | some st =>
      exact StackInv_jsMapSet s s.currentIndex _ hInv (StackInv_get s hInv _ st hget)
  | recordAction type affected now => exact StackInv_recordAction s type affected now hInv
  | undo =>
    cases hget : jsMapGet s.imageStates s.currentIndex with
    | none => simpa only [undo, hget] using hInv
    | some st =>
      cases hlast : st.undoStack.getLast? with
      | none => simpa only [undo, hget, hlast] using hInv
      | some action =>
        simp only [undo, hget, hlast]
        intro p hp
        have hb := StackInv_get s hInv _ st hget
        have hne : st.undoStack ≠ [] := by
          intro hcon
          rw [hcon] at hlast
          exact absurd hlast (by simp)
        rw [updateModifiedState_imageStates] at hp
        rcases mem_jsMapSet _ _ _ p hp with h1 | rfl
        · exact hInv p h1
        · simp only [List.length_dropLast, List.length_append, List.length_singleton]
          have : st.undoStack.length ≠ 0 := by
            simpa [List.length_eq_zero] using hne
          omega
  | redo =>
    cases hget : jsMapGet s.imageStates s.currentIndex with
    | none => simpa only [redo, hget] using hInv
    | some st =>
      cases hlast : st.redoStack.getLast? with
      | none => simpa only [redo, hget, hlast] using hInv
      | some action =>
        simp only [redo, hget, hlast]
        intro p hp
        have hb := StackInv_get s hInv _ st hget
        have hne : st.redoStack ≠ [] := by
          intro hcon
          rw [hcon] at hlast
          exact absurd hlast (by simp)
        rw [updateModifiedState_imageStates] at hp
        rcases mem_jsMapSet _ _ _ p hp with h1 | rfl
        · exact hInv p h1
        · simp only [List.length_dropLast, List.length_append, List.length_singleton]
          have : st.redoStack.length ≠ 0 := by
            simpa [List.length_eq_zero] using hne
          omega
  | deleteSelected now =>
    cases hget : jsMapGet s.imageStates s.currentIndex with
    | none => simpa only [deleteSelected, hget] using hInv
    | some st =>
      simp only [deleteSelected, hget]
      split
      · exact hInv
      · exact StackInv_markModified _
          (StackInv_modifyCurrentBoxes _ _ (StackInv_recordAction _ _ _ _ hInv))
  | restoreDeleted onlySelected now =>
    cases hget : jsMapGet s.imageStates s.currentIndex with
    | none => simpa only [restoreDeleted, hget] using hInv
    | some st =>
      simp only [restoreDeleted, hget]
      split <;> split <;>
        first
          | exact hInv
          | exact StackInv_markModified _
              (StackInv_modifyCurrentBoxes _ _ (StackInv_recordAction _ _ _ _ hInv))
  | selectAll => exact StackInv_modifyCurrentBoxes _ _ hInv
  | clearSelection => exact StackInv_modifyCurrentBoxes _ _ hInv
  | toggleBoxSelection bid =>
    cases hget : jsMapGet s.imageStates s.currentIndex with
    | none => simpa only [toggleBoxSelection, hget] using hInv
    | some st =>
      cases hfind : st.boxes.find? fun b => b.id == bid with
      | none => simpa only [toggleBoxSelection, hget, hfind] using hInv
      | some b =>
        simp only [toggleBoxSelection, hget, hfind]
        split
        · exact StackInv_modifyCurrentBoxes _ _ hInv
        · exact hInv
  | selectBox bid =>
    have hInv1 : StackInv (clearSelection s) := StackInv_modifyCurrentBoxes _ _ hInv
    cases hget : jsMapGet (clearSelection s).imageStates (clearSelection s).currentIndex with
    | none => simpa only [selectBox, hget] using hInv1
    | some st =>
      cases hfind : st.boxes.find? fun b => b.id == bid with
      | none => simpa only [selectBox, hget, hfind] using hInv1
      | some b =>
        simp only [selectBox, hget, hfind]
        split
        · exact StackInv_modifyCurrentBoxes _ _ hInv1
        · exact hInv1
  | markSaved => exact StackInv_markSaved s hInv
  | markSavedAt index =>
    rw [markSavedAt]
    apply StackInv_currentIndex
    exact StackInv_markSaved _ (StackInv_currentIndex _ _ hInv)
  | clearImageState index =>
    intro p hp
    rw [clearImageState] at hp
    exact hInv p (List.mem_of_mem_filter hp)
  | clearAll =>
    intro p hp
    exact absurd hp (List.not_mem_nil p)
  | resetCurrent =>
    rw [resetCurrent]
    cases hget : jsMapGet s.imageStates s.currentIndex with
    | none => exact hInv
    | some st =>
      intro p hp
      rcases mem_jsMapSet _ _ _ p hp with h1 | rfl
      · exact hInv p h1
      · simp [maxStackSize]

end StateManager

/-! ## Claim C5: the undo-stack bound -/

set_option maxRecDepth 10000 in
/-- **C5.** Every mutating API call preserves the stack bound, so from a
fresh session the undo stack never exceeds 50 entries; pushing onto a full
stack drops the oldest entry (FIFO) before appending the new action; any
recorded action clears the redo stack; and 60 delete/restore pairs on one
image leave exactly 50 entries alternating delete/restore (the oldest 70
were discarded first). -/
theorem C5_undo_stack_bound :
    (∀ s s', StateManager.StackInv s → StateManager.Step s s' → StateManager.StackInv s') ∧
    (∀ s, Relation.ReflTransGen StateManager.Step StateManager.init s →
      ∀ k st, jsMapGet s.imageStates k = some st → st.undoStack.length ≤ 50) ∧
    (∀ s st type affected now,
      jsMapGet s.imageStates s.currentIndex = some st →
      st.undoStack.length = 50 →
      ∃ st', jsMapGet (StateManager.recordAction s type affected now).imageStates
          s.currentIndex = some st' ∧
        st'.undoStack = st.undoStack.drop 1 ++
          [{ type := type, boxes := affected.map LabelParser.cloneBox, timestamp := now }] ∧
        st'.redoStack = []) ∧
    (∀ s st type affected now,
      jsMapGet s.imageStates s.currentIndex = some st →
      ∃ st', jsMapGet (StateManager.recordAction s type affected now).imageStates
          s.currentIndex = some st' ∧ st'.redoStack = []) ∧
    ((jsMapGet (StateManager.drPairs 60 StateManager.demoState).imageStates 0).map
        (fun st => st.undoStack.length) = some 50 ∧
      (jsMapGet (StateManager.drPairs 60 StateManager.demoState).imageStates 0).map
        (fun st => st.undoStack.map fun a => a.type) =
        some ((List.replicate 25 [actDelete, actRestore]).flatten)) := by
  refine ⟨fun s s' h hstep => StateManager.StackInv_step s s' h hstep, ?_, ?_, ?_, ?_, ?_⟩
  · have hInv : ∀ s, Relation.ReflTransGen StateManager.Step StateManager.init s →
        StateManager.StackInv s := by
      intro s hreach
      induction hreach with
      | refl => intro p hp; exact absurd hp (List.not_mem_nil p)
      | tail _ h2 ih => exact StateManager.StackInv_step _ _ ih h2
    intro s hreach k st hget
    have hb := StateManager.StackInv_get s (hInv s hreach) k st hget
    rw [StateManager.maxStackSize] at hb
    omega
  · intro s st type affected now hget hlen
    simp only [StateManager.recordAction, hget]
    refine ⟨_, jsMapGet_jsMapSet_self _ _ _, ?_, rfl⟩
    show (if StateManager.maxStackSize < (st.undoStack ++ [_]).length
        then (st.undoStack ++ [_]).drop 1 else st.undoStack ++ [_]) = _
    rw [if_pos (by rw [List.length_append, hlen]; simp [StateManager.maxStackSize])]
    rw [List.drop_append_of_le_length (by rw [hlen]; omega)]
  · intro s st type affected now hget
    simp only [StateManager.recordAction, hget]
    exact ⟨_, jsMapGet_jsMapSet_self _ _ _, rfl⟩
  · with_unfolding_all rfl
  · with_unfolding_all rfl

/-- **C5, witness.** The bound holds for the one-step-reachable fresh
session; pushing onto a concrete full 50-entry stack keeps 50 entries with
the oldest dropped, and the redo stack is cleared by recording on a fresh
session. -/
theorem C5_undo_stack_bound_witness :
    (⟨[StateManager.demoBox], [StateManager.demoBox], ([] : List EditAction),
        ([] : List EditAction)⟩ : ImageState).undoStack.length ≤ 50 ∧
    (∃ st', jsMapGet (StateManager.recordAction StateManager.fullStackState actDelete [] 7).imageStates
        StateManager.fullStackState.currentIndex = some st' ∧
      st'.undoStack = StateManager.fullStackImage.undoStack.drop 1 ++
        [{ type := actDelete, boxes := [].map LabelParser.cloneBox, timestamp := 7 }] ∧
      st'.redoStack = []) ∧
    (∃ st', jsMapGet (StateManager.recordAction StateManager.demoState actRestore [] 3).imageStates
        StateManager.demoState.currentIndex = some st' ∧ st'.redoStack = []) := by
  refine ⟨?_, ?_, ?_⟩
  · exact (C5_undo_stack_bound).2.1 StateManager.demoState
      (Relation.ReflTransGen.single
        (StateManager.Step.initImageState StateManager.init 0 [StateManager.demoBox]))
      0 _ (by with_unfolding_all rfl)
  · exact (C5_undo_stack_bound).2.2.1 StateManager.fullStackState
      StateManager.fullStackImage actDelete [] 7 (by with_unfolding_all rfl)
      (by with_unfolding_all rfl)
  · exact (C5_undo_stack_bound).2.2.2.1 StateManager.demoState
      ⟨[StateManager.demoBox], [StateManager.demoBox], [], []⟩ actRestore [] 3
      (by with_unfolding_all rfl)

/-! ## Supporting lemmas: the LRU cache -/

namespace LRUCache

variable {κ ν : Type} [DecidableEq κ]

theorem lookupRaw_of_forall_ne (c : List (κ × ν)) (k : κ) (h : ∀ p ∈ c, p.1 ≠ k) :
    lookupRaw c k = none := by
  rw [lookupRaw, List.find?_eq_none.mpr]
  · rfl
  · intro p hp
    simpa using h p hp

theorem lookupRaw_eraseKey (c : List (κ × ν)) (k : κ) :
    lookupRaw (eraseKey c k) k = none := by
  apply lookupRaw_of_forall_ne
  intro p hp
  rw [eraseKey, List.mem_filter] at hp
  simpa using hp.2

theorem set_fresh_notfull (c : LRUCache κ ν) (k : κ) (v : ν)
    (hk : lookupRaw c.cache k = none) (hlen : c.cache.length < c.maxSize) :
    set c k v = ({ c with cache := c.cache ++ [(k, v)] }, []) := by
  rw [set, hk]
  rw [if_neg (by simp)]
  rw [if_neg (by omega)]

theorem set_fresh_full (c : LRUCache κ ν) (k : κ) (v : ν) (p : κ × ν)
    (rest : List (κ × ν)) (hk : lookupRaw c.cache k = none) (hc : c.cache = p :: rest)
    (hlen : c.maxSize ≤ c.cache.length) :
    set c k v = ({ c with cache := rest ++ [(k, v)] }, [p.2]) := by
  rw [set, hk]
  rw [if_neg (by simp)]
  rw [if_pos hlen]
  rw [hc]

theorem setMany_fresh (kvs : List (κ × ν)) :
    ∀ c : LRUCache κ ν,
      (∀ p ∈ kvs, ∀ q ∈ c.cache, q.1 ≠ p.1) → (kvs.map Prod.fst).Nodup →
      c.cache.length + kvs.length ≤ c.maxSize →
      setMany c kvs = ({ c with cache := c.cache ++ kvs }, []) := by
  induction kvs with
  | nil =>
    intro c _ _ _
    simp [setMany]
  | cons p rest ih =>
    intro c hfresh hnd hlen
    have hk : lookupRaw c.cache p.1 = none :=
      lookupRaw_of_forall_ne _ _ fun q hq => hfresh p (List.mem_cons_self p rest) q hq
    have hstep := set_fresh_notfull c p.1 p.2 hk (by simp at hlen; omega)
    rw [setMany, List.foldl_cons]
    rw [show ((c.set p.1 p.2).1, ([] : List ν) ++ (c.set p.1 p.2).2) =
      ({ c with cache := c.cache ++ [(p.1, p.2)] }, ([] : List ν)) by rw [hstep]; rfl]
    rw [List.map_cons, List.nodup_cons] at hnd
    have ihr := ih { c with cache := c.cache ++ [(p.1, p.2)] }
      (by
        intro x hx q hq
        rcases List.mem_append.mp hq with h1 | h1
        · exact hfresh x (List.mem_cons_of_mem p hx) q h1
        · rw [List.mem_singleton.mp h1]
          intro hcon
          exact hnd.1 (hcon ▸ List.mem_map_of_mem Prod.fst hx))
      hnd.2
      (by simp at hlen ⊢; omega)
    rw [show List.foldl
        (fun acc q => ((acc.1.set q.1 q.2).1, acc.2 ++ (acc.1.set q.1 q.2).2))
        ({ c with cache := c.cache ++ [(p.1, p.2)] }, ([] : List ν)) rest =
      setMany { c with cache := c.cache ++ [(p.1, p.2)] } rest from rfl]
    rw [ihr]
    simp

end LRUCache

/-! ## Claim C6: LRU eviction, promotion, replacement, clear -/

/-- **C6.** Filling an empty capacity-`C` cache with `C+1` distinct keys
evicts exactly the first (least recently used) entry through the release
path; `get` promotes its key so a subsequent overflowing `set` evicts the
second-oldest entry instead; `set` on an existing key replaces the value and
promotes the key, releasing nothing; `clear` sends every held value (each
exactly once, oldest first) through the release path and empties the
cache. -/
theorem C6_lru_eviction {κ ν : Type} [DecidableEq κ] :
    (∀ (C : Nat) (p : κ × ν) (rest : List (κ × ν)) (q : κ × ν),
      rest.length + 1 = C → (((p :: rest) ++ [q]).map Prod.fst).Nodup →
      LRUCache.setMany ⟨C, []⟩ ((p :: rest) ++ [q]) = (⟨C, rest ++ [q]⟩, [p.2])) ∧
    (∀ (c : LRUCache κ ν) (k1 : κ) (v1 : ν) (k2 : κ) (v2 : ν) rest (kn : κ) (vn : ν),
      c.cache = (k1, v1) :: (k2, v2) :: rest →
      c.maxSize = c.cache.length →
      (c.cache.map Prod.fst).Nodup →
      (∀ p ∈ c.cache, p.1 ≠ kn) →
      (LRUCache.get c k1).2 = some v1 ∧
      ((LRUCache.get c k1).1.set kn vn).2 = [v2] ∧
      (k1, v1) ∈ ((LRUCache.get c k1).1.set kn vn).1.cache) ∧
    (∀ (c : LRUCache κ ν) (k : κ) (v v' : ν),
      LRUCache.lookupRaw c.cache k = some v' →
      (c.set k v).2 = [] ∧
      LRUCache.lookupRaw (c.set k v).1.cache k = some v ∧
      (c.set k v).1.cache = LRUCache.eraseKey c.cache k ++ [(k, v)]) ∧
    (∀ c : LRUCache κ ν,
      (LRUCache.clear c).2 = c.cache.map Prod.snd ∧ (LRUCache.clear c).1.cache = []) := by
  refine ⟨?_, ?_, ?_, fun c => ⟨rfl, rfl⟩⟩
  · intro C p rest q hC hnd
    rw [List.map_append, List.nodup_append] at hnd
    obtain ⟨hnd1, _, hdisj⟩ := hnd
    have hfill := LRUCache.setMany_fresh (p :: rest) (⟨C, []⟩ : LRUCache κ ν)
      (by intro x hx qq hqq; exact absurd hqq (List.not_mem_nil qq))
      hnd1
      (by simp; omega)
    rw [LRUCache.setMany, List.foldl_append]
    rw [show List.foldl
        (fun acc r => ((acc.1.set r.1 r.2).1, acc.2 ++ (acc.1.set r.1 r.2).2))
        ((⟨C, []⟩ : LRUCache κ ν), ([] : List ν)) (p :: rest) =
      LRUCache.setMany (⟨C, []⟩ : LRUCache κ ν) (p :: rest) from rfl]
    rw [hfill]
    have hq : LRUCache.lookupRaw (([] : List (κ × ν)) ++ p :: rest) q.1 = none := by
      apply LRUCache.lookupRaw_of_forall_ne
      intro x hx
      rw [List.nil_append] at hx
      intro hcon
      exact hdisj (hcon ▸ List.mem_map_of_mem Prod.fst hx) (by simp)
    have hset := LRUCache.set_fresh_full
      ({ (⟨C, []⟩ : LRUCache κ ν) with cache := [] ++ p :: rest }) q.1 q.2 p rest
      hq (by simp) (by simp; omega)
    rw [List.foldl_cons, List.foldl_nil]
    show ((({ (⟨C, []⟩ : LRUCache κ ν) with cache := [] ++ p :: rest }).set q.1 q.2).1,
        ([] : List ν) ++ (({ (⟨C, []⟩ : LRUCache κ ν) with cache := [] ++ p :: rest }).set q.1 q.2).2) =
      ((⟨C, rest ++ [q]⟩ : LRUCache κ ν), [p.2])
    rw [hset]
    simp
  · intro c k1 v1 k2 v2 rest kn vn hc hsz hnd hfresh
    have hlk : LRUCache.lookupRaw c.cache k1 = some v1 := by
      rw [hc, LRUCache.lookupRaw, List.find?_cons_of_pos _ (by simp)]
      rfl
    have hget : LRUCache.get c k1 =
        ({ c with cache := LRUCache.eraseKey c.cache k1 ++ [(k1, v1)] }, some v1) := by
      rw [LRUCache.get, hlk]
    have herase : LRUCache.eraseKey c.cache k1 = (k2, v2) :: rest := by
      rw [hc, LRUCache.eraseKey]
      rw [List.filter_cons_of_neg (by simp)]
      rw [List.filter_eq_self.mpr]
      intro p hp
      rw [hc, List.map_cons, List.nodup_cons] at hnd
      simp only [Bool.not_eq_eq_eq_not, Bool.not_true, beq_eq_false_iff_ne, ne_eq]
      intro hcon
      apply hnd.1
      have hmem : p.1 ∈ List.map Prod.fst ((k2, v2) :: rest) :=
        List.mem_map_of_mem Prod.fst hp
      rwa [hcon] at hmem
    refine ⟨by rw [hget], ?_, ?_⟩
    · rw [hget]
      have hk : LRUCache.lookupRaw
          ({ c with cache := LRUCache.eraseKey c.cache k1 ++ [(k1, v1)] } :
            LRUCache κ ν).cache kn = none := by
        apply LRUCache.lookupRaw_of_forall_ne
        intro p hp
        rcases List.mem_append.mp hp with h1 | h1
        · rw [herase] at h1
          exact hfresh p (hc ▸ List.mem_cons_of_mem _ h1)
        · rw [List.mem_singleton.mp h1]
          exact hfresh (k1, v1) (hc ▸ List.mem_cons_self _ _)
      have hsz2 : ({ c with cache := LRUCache.eraseKey c.cache k1 ++ [(k1, v1)] } :
          LRUCache κ ν).maxSize ≤
          ({ c with cache := LRUCache.eraseKey c.cache k1 ++ [(k1, v1)] } :
            LRUCache κ ν).cache.length := by
        simp only [herase]
        rw [hsz, hc]
        simp
      have := LRUCache.set_fresh_full _ kn vn (k2, v2) (rest ++ [(k1, v1)]) hk
        (by simp only [herase]; simp) hsz2
      rw [this]
    · rw [hget]
      have hk : LRUCache.lookupRaw
          ({ c with cache := LRUCache.eraseKey c.cache k1 ++ [(k1, v1)] } :
            LRUCache κ ν).cache kn = none := by
        apply LRUCache.lookupRaw_of_forall_ne
        intro p hp
        rcases List.mem_append.mp hp with h1 | h1
        · rw [herase] at h1
          exact hfresh p (hc ▸ List.mem_cons_of_mem _ h1)
        · rw [List.mem_singleton.mp h1]
          exact hfresh (k1, v1) (hc ▸ List.mem_cons_self _ _)
      have hsz2 : ({ c with cache := LRUCache.eraseKey c.cache k1 ++ [(k1, v1)] } :
          LRUCache κ ν).maxSize ≤
          ({ c with cache := LRUCache.eraseKey c.cache k1 ++ [(k1, v1)] } :
            LRUCache κ ν).cache.length := by
        simp only [herase]
        rw [hsz, hc]
        simp
      have := LRUCache.set_fresh_full _ kn vn (k2, v2) (rest ++ [(k1, v1)]) hk
        (by simp only [herase]; simp) hsz2
      rw [this]
      simp
  · intro c k v v' hlk
    refine ⟨?_, ?_, ?_⟩
    · rw [LRUCache.set, hlk]
      rw [if_pos (by simp)]
    · rw [LRUCache.set, hlk]
      rw [if_pos (by simp)]
      have h0 : List.find? (fun p => p.1 == k) (LRUCache.eraseKey c.cache k) = none := by
        have h1 := LRUCache.lookupRaw_eraseKey c.cache k
        rw [LRUCache.lookupRaw] at h1
        exact Option.map_eq_none'.mp h1
      rw [LRUCache.lookupRaw, List.find?_append, h0]
      simp [List.find?_cons]
    · rw [LRUCache.set, hlk]
      rw [if_pos (by simp)]

/-- Witness: on a capacity-2 `Nat`-keyed cache, filling with keys 1,2,3 evicts
value 11; promoting key 1 by `get` makes the overflowing insert evict 22
instead; replacing key 1's value releases nothing; `clear` releases 11 then
22. -/
theorem C6_lru_eviction_witness :
    LRUCache.setMany (⟨2, []⟩ : LRUCache Nat Nat) (((1, 11) :: [(2, 22)]) ++ [(3, 33)]) =
      (⟨2, [(2, 22)] ++ [(3, 33)]⟩, [11]) ∧
    ((LRUCache.get (⟨2, [(1, 11), (2, 22)]⟩ : LRUCache Nat Nat) 1).1.set 3 33).2 = [22] ∧
    ((⟨2, [(1, 11), (2, 22)]⟩ : LRUCache Nat Nat).set 1 99).2 = [] ∧
    (LRUCache.clear (⟨2, [(1, 11), (2, 22)]⟩ : LRUCache Nat Nat)).2 = [11, 22] := by
  have h := @C6_lru_eviction Nat Nat _
  refine ⟨?_, ?_, ?_, ?_⟩
  · exact h.1 2 (1, 11) [(2, 22)] (3, 33) (by decide) (by decide)
  · exact (h.2.1 ⟨2, [(1, 11), (2, 22)]⟩ 1 11 2 22 [] 3 33 rfl rfl (by decide)
      (by decide)).2.1
  · exact (h.2.2.1 ⟨2, [(1, 11), (2, 22)]⟩ 1 99 11 rfl).1
  · exact (h.2.2.2 ⟨2, [(1, 11), (2, 22)]⟩).1

/-! ## Claim C9: same-key replacement never invokes the release path -/

/-- **C9.** `set` on a key already present discards the old value without
sending anything through the release path (also when the cache is at
capacity), and afterwards the key maps to the new value; the release path
does run on explicit `delete` of a held value and on `clear`. -/
theorem C9_replace_no_release {κ ν : Type} [DecidableEq κ] (c : LRUCache κ ν)
    (k : κ) (v v' : ν) (h : LRUCache.lookupRaw c.cache k = some v') :
    (c.set k v).2 = [] ∧
    LRUCache.lookupRaw (c.set k v).1.cache k = some v ∧
    (LRUCache.del c k).2 = ([v'], true) ∧
    (LRUCache.clear c).2 = c.cache.map Prod.snd := by
  refine ⟨?_, ?_, ?_, rfl⟩
  · rw [LRUCache.set, h]
    rw [if_pos (by simp)]
  · rw [LRUCache.set, h]
    rw [if_pos (by simp)]
    have h0 : List.find? (fun p => p.1 == k) (LRUCache.eraseKey c.cache k) = none := by
      have h1 := LRUCache.lookupRaw_eraseKey c.cache k
      rw [LRUCache.lookupRaw] at h1
      exact Option.map_eq_none'.mp h1
    rw [LRUCache.lookupRaw, List.find?_append, h0]
    simp [List.find?_cons]
  · rw [LRUCache.del, h]

/-- Witness: replacing key 5's value in a full capacity-1 cache releases
nothing, while `delete` and `clear` on that cache release the held value 7. -/
theorem C9_replace_no_release_witness :
    ((⟨1, [(5, 7)]⟩ : LRUCache Nat Nat).set 5 9).2 = [] ∧
    LRUCache.lookupRaw ((⟨1, [(5, 7)]⟩ : LRUCache Nat Nat).set 5 9).1.cache 5 = some 9 ∧
    (LRUCache.del (⟨1, [(5, 7)]⟩ : LRUCache Nat Nat) 5).2 = ([7], true) ∧
    (LRUCache.clear (⟨1, [(5, 7)]⟩ : LRUCache Nat Nat)).2 = [7] :=
  C9_replace_no_release ⟨1, [(5, 7)]⟩ 5 9 7 rfl

/-! ## Claim C3: the reading accessors hand out live references -/

/-- Counterexample to C3 as stated: `getCurrentBoxes` returns the session's
live `state.boxes` array, so mutating a box reached through it (setting
`deleted` on the returned box object) changes the session's stored working
collection. -/
theorem C3_read_copies_counterexample :
    0 ∈ SessionHeap.getCurrentBoxesRefs demoHeap ∧
    SessionHeap.workingBoxes
        (SessionHeap.writeBox demoHeap 0 { StateManager.demoBox with deleted := true }) ≠
      SessionHeap.workingBoxes demoHeap := by
  constructor
  · with_unfolding_all decide
  · with_unfolding_all decide

/-- **C3** (amended). The reading accessors alias live state: `getCurrentBoxes`
returns the session's own `state.boxes` array itself, and every element of
the fresh array built by `getBoxesForSave` is a reference into that live
array, so external mutation through either result reaches session state. -/
theorem C3_read_aliasing (s : SessionHeap) (a : Nat)
    (ha : a ∈ SessionHeap.getBoxesForSaveRefs s) :
    SessionHeap.getCurrentBoxesRefs s = s.boxRefs ∧ a ∈ s.boxRefs := by
  rw [SessionHeap.getBoxesForSaveRefs] at ha
  exact ⟨rfl, (List.mem_filter.mp ha).1⟩

/-- Witness: on a one-box heap, address 1 appears in the save view and is an
address of the live working array. -/
theorem C3_read_aliasing_witness :
    (1 ∈ SessionHeap.getBoxesForSaveRefs ⟨[(1, StateManager.demoBox)], [1], []⟩) ∧
    (SessionHeap.getCurrentBoxesRefs ⟨[(1, StateManager.demoBox)], [1], []⟩ =
        (⟨[(1, StateManager.demoBox)], [1], []⟩ : SessionHeap).boxRefs ∧
      1 ∈ (⟨[(1, StateManager.demoBox)], [1], []⟩ : SessionHeap).boxRefs) :=
  ⟨by with_unfolding_all decide,
   C3_read_aliasing ⟨[(1, StateManager.demoBox)], [1], []⟩ 1 (by with_unfolding_all decide)⟩
